/-
Verification of the protobuf-uml-diagram generator (protobuf_uml_diagram.py).

The Python program walks a root compiled-protobuf module's dependency
closure, building three tables (`Mappings.types`, `Mappings.type_mapping`,
`Mappings.message_mapping`), and then emits a graphviz dot document with one
node block per message type and one edge per message-typed field.

This file gives a shallow embedding of that program:
  * Python `dict`s are insertion-ordered association lists (`odUpdate`
    replaces the value of an existing key in place, keeping its position,
    and appends unknown keys at the end, exactly like CPython dicts);
  * Python string methods `str.lower` / `str.replace` are modelled by
    `pyLower` / `pyReplace` (replace all non-overlapping occurrences, left
    to right; the inputs here are ASCII);
  * the recursive `_build_mappings` traversal, which has no visited-set
    guard and hence diverges on cyclic import graphs, is modelled with an
    explicit fuel parameter: `.error .outOfFuel` for every fuel value is
    the embedding of non-termination;
  * a field's `message_type` descriptor is modelled by the referenced
    message type's name, the only attribute the program reads from it;
  * Python exceptions become `Except` / `Option` results.
-/
import Mathlib

set_option maxHeartbeats 1000000
set_option maxRecDepth 100000
set_option linter.unusedSectionVars false

deriving instance DecidableEq for Except

namespace ProtoUml

/-! ## Insertion-ordered dictionaries (CPython `dict` semantics) -/

/-- Lookup in an insertion-ordered dictionary (`d[k]` / `k in d`). -/
def odLookup {α β : Type} [DecidableEq α] (d : List (α × β)) (k : α) : Option β :=
  (d.find? (fun p => p.1 = k)).map (fun p => p.2)

/-- Keys of a dictionary, in insertion order. -/
def keysOf {α β : Type} (d : List (α × β)) : List α :=
  d.map (fun p => p.1)

/-- `d[k] = v`: replace the value of an existing key in place (keeping its
position), append a new key at the end — CPython dict assignment. -/
def odUpdate {α β : Type} [DecidableEq α] (d : List (α × β)) (k : α) (v : β) :
    List (α × β) :=
  if k ∈ keysOf d then
    d.map (fun p => if p.1 = k then (k, v) else p)
  else
    d ++ [(k, v)]

/-- `d.update(ps)`: apply `odUpdate` for each pair of `ps` in order. -/
def odUpdateAll {α β : Type} [DecidableEq α] (d : List (α × β))
    (ps : List (α × β)) : List (α × β) :=
  ps.foldl (fun acc p => odUpdate acc p.1 p.2) d

/-! ## Python string primitives -/

/-- ASCII lowercasing of one character (`str.lower` on the ASCII inputs the
program uses). -/
def asciiLowerChar (c : Char) : Char :=
  if 'A' ≤ c ∧ c ≤ 'Z' then Char.ofNat (c.toNat + 32) else c

/-- `s.lower()` on ASCII strings. -/
def pyLower (s : String) : String :=
  (s.data.map asciiLowerChar).asString

/-- Worker for `pyReplace`: replace every non-overlapping occurrence of
`pat` (non-empty) by `rep`, scanning left to right.  The `Nat` argument is
fuel bounding the number of characters still to inspect; the caller passes
the length of the string, which suffices because every step consumes at
least one character. -/
def pyReplaceGo (pat rep : List Char) : Nat → List Char → List Char
  | 0, s => s
  | _ + 1, [] => []
  | n + 1, c :: cs =>
    if pat.isPrefixOf (c :: cs) then
      rep ++ pyReplaceGo pat rep n (cs.drop (pat.length - 1))
    else
      c :: pyReplaceGo pat rep n cs

/-- `s.replace(pat, rep)` for a non-empty pattern (all the patterns the
program uses are non-empty; the empty pattern is mapped to the identity). -/
def pyReplace (s pat rep : String) : String :=
  if pat.data = [] then s
  else (pyReplaceGo pat.data rep.data s.data.length s.data).asString

/-! ## Data model

`Field`, `MessageType` and `ProtoFile` embed the attributes of the protobuf
descriptor objects that the program reads:
`_field.name`, `_field.type`, `_field.message_type` (only its `.name` is
read, so the reference is modelled by the referenced type's name),
`message.fields`, `DESCRIPTOR.message_types_by_name`,
`DESCRIPTOR.dependencies` (only `.name` of each is read) and the module's
`__file__`. -/

structure Field where
  name : String
  type : Nat
  message_type : Option String
deriving DecidableEq

structure MessageType where
  name : String
  fields : List Field
deriving DecidableEq

structure ProtoFile where
  message_types_by_name : List (String × MessageType)
  dependencies : List String
  module_file : String
deriving DecidableEq

/-- The three tables of the `Mappings` class.  In Python these are
class-level attributes, i.e. one process-global triple of dicts shared by
every `Mappings()` instance; the functions below therefore thread the
current global state explicitly. -/
structure Mappings where
  types : List (String × MessageType)
  type_mapping : List (Nat × String)
  message_mapping : List (String × Nat)
deriving DecidableEq

/-- The process-global tables at interpreter start: all three class-level
dicts are empty. -/
def emptyMappings : Mappings := ⟨[], [], []⟩

/-- `FieldDescriptorProto.Type.items()`: the fixed primitive-type
enumeration of the protobuf descriptor, as (constant name, numeric code)
pairs in declaration order. -/
def fieldDescriptorTypeItems : List (String × Nat) :=
  [("TYPE_DOUBLE", 1), ("TYPE_FLOAT", 2), ("TYPE_INT64", 3),
   ("TYPE_UINT64", 4), ("TYPE_INT32", 5), ("TYPE_FIXED64", 6),
   ("TYPE_FIXED32", 7), ("TYPE_BOOL", 8), ("TYPE_STRING", 9),
   ("TYPE_GROUP", 10), ("TYPE_MESSAGE", 11), ("TYPE_BYTES", 12),
   ("TYPE_UINT32", 13), ("TYPE_ENUM", 14), ("TYPE_SFIXED32", 15),
   ("TYPE_SFIXED64", 16), ("TYPE_SINT32", 17), ("TYPE_SINT64", 18)]

/-- The dict comprehension
`{number: text.lower().replace("type_", "") for text, number in
FieldDescriptorProto.Type.items()}`. -/
def typeMappingItems : List (Nat × String) :=
  fieldDescriptorTypeItems.map (fun p => (p.2, pyReplace (pyLower p.1) "type_" ""))

/-! ## Descriptor mapping builder (`_get_message_mapping`, `_build_mappings`) -/

/-- `_get_message_mapping(types)`: enumerate the current type table in its
iteration order, assigning indices into a fresh dict starting at 2 and
incrementing by 1 per entry. -/
def getMessageMapping (types : List (String × MessageType)) :
    List (String × Nat) :=
  (types.foldl (fun acc p => (odUpdate acc.1 p.1 acc.2, acc.2 + 1))
    (([] : List (String × Nat)), 2)).1

/-- The non-recursive body of `_build_mappings`: refresh `type_mapping`
from the fixed enumeration, merge the file's message types into `types`
and merge the re-enumeration of `types` into `message_mapping`. -/
def buildMappingsStep (proto_file : ProtoFile) (m : Mappings) : Mappings :=
  ⟨odUpdateAll m.types proto_file.message_types_by_name,
   odUpdateAll m.type_mapping typeMappingItems,
   odUpdateAll m.message_mapping
     (getMessageMapping (odUpdateAll m.types proto_file.message_types_by_name))⟩

/-- `_module(proto)`: `proto.replace(".proto", "_pb2").replace("/", ".")`,
the name under which a dependency's compiled module is imported. -/
def moduleNameOf (proto : String) : String :=
  pyReplace (pyReplace proto ".proto" "_pb2") "/" "."

/-- The loaded-module environment: which `ProtoFile` each importable module
name resolves to.  `_module(_dep.name)` becomes a lookup of the transformed
dependency name; an absent entry models an import error. -/
abbrev Env : Type := List (String × ProtoFile)

/-- Resolve one dependency descriptor name through the module loader. -/
def resolveDep (env : Env) (dep : String) : Option ProtoFile :=
  odLookup env (moduleNameOf dep)

/-- How the embedded `_build_mappings` can fail: a dependency module that
does not import (`ImportError`), or fuel exhaustion, the embedding of the
unbounded recursion of the guard-less traversal. -/
inductive BuildErr where
  | loadError (dep : String)
  | outOfFuel
deriving DecidableEq

/-- The `for _dep in proto_file.DESCRIPTOR.dependencies` loop of
`_build_mappings`, parameterised by the recursive call `rec` (the builder
at the next recursion depth): resolve each dependency and recurse into it
with the accumulated tables. -/
def buildDepsWith (env : Env)
    (rec : ProtoFile → Mappings → Except BuildErr Mappings) :
    List String → Mappings → Except BuildErr Mappings
  | [], m => .ok m
  | d :: ds, m =>
    match resolveDep env d with
    | none => .error (.loadError d)
    | some g =>
      match rec g m with
      | .error e => .error e
      | .ok m2 => buildDepsWith env rec ds m2

/-- `_build_mappings(proto_file, mappings)`: one step of table building,
then recursion into every dependency, threading the shared tables.  The
fuel bounds the recursion depth; `_build_mappings` itself has no
termination guard, so fuel exhaustion at every fuel value is the embedding
of its unbounded recursion. -/
def buildMappings (env : Env) (fuel : Nat) :
    ProtoFile → Mappings → Except BuildErr Mappings :=
  Nat.rec (motive := fun _ => ProtoFile → Mappings → Except BuildErr Mappings)
    (fun _ _ => .error .outOfFuel)
    (fun _ rec proto_file m =>
      buildDepsWith env rec proto_file.dependencies
        (buildMappingsStep proto_file m))
    fuel

/-- Traversal order of the dependency loop, parameterised by the recursive
trace at the next depth. -/
def depsTraceWith (env : Env)
    (rec : ProtoFile → Except BuildErr (List ProtoFile)) :
    List String → Except BuildErr (List ProtoFile)
  | [] => .ok []
  | d :: ds =>
    match resolveDep env d with
    | none => .error (.loadError d)
    | some g =>
      match rec g with
      | .error e => .error e
      | .ok l1 =>
        match depsTraceWith env rec ds with
        | .error e => .error e
        | .ok l2 => .ok (l1 ++ l2)

/-- The traversal order of `_build_mappings`, independent of the table
state: the preorder list of visited files (or the error the traversal
raises). -/
def visitTrace (env : Env) (fuel : Nat) :
    ProtoFile → Except BuildErr (List ProtoFile) :=
  Nat.rec (motive := fun _ => ProtoFile → Except BuildErr (List ProtoFile))
    (fun _ => .error .outOfFuel)
    (fun _ rec proto_file =>
      match depsTraceWith env rec proto_file.dependencies with
      | .error e => .error e
      | .ok l => .ok (proto_file :: l))
    fuel

/-! ## Graph template generator (`_get_uml_template`) -/

/-- Process one field of message `key`: look up the display name of its
numeric type code (Python raises `KeyError`, here `none`, if the code is
unknown), then, if the field references another message type, look up both
node indices, produce the edge string, and replace the display name by the
referenced type's name.  Returns (field display line, optional edge). -/
def processField (type_mapping : List (Nat × String))
    (message_mapping : List (String × Nat)) (key : String) (f : Field) :
    Option (String × Option String) :=
  match odLookup type_mapping f.type with
  | none => none
  | some field_type =>
    match f.message_type with
    | none => some ("+ " ++ f.name ++ ":" ++ field_type, none)
    | some ref =>
      match odLookup message_mapping key, odLookup message_mapping ref with
      | some this_node, some that_node =>
        some ("+ " ++ f.name ++ ":" ++ ref,
          some ("    " ++ toString this_node ++ "->" ++ toString that_node))
      | _, _ => none

/-- The inner `for _field in message.fields` loop: collect the field lines
and, in the same order, the edges appended to the relationship list. -/
def processFields (type_mapping : List (Nat × String))
    (message_mapping : List (String × Nat)) (key : String) :
    List Field → Option (List String × List String)
  | [] => some ([], [])
  | f :: fs =>
    match processField type_mapping message_mapping key f with
    | none => none
    | some (line, e) =>
      match processFields type_mapping message_mapping key fs with
      | none => none
      | some (lines, es) => some (line :: lines, e.toList ++ es)

/-- One node block: `    {idx}[label = "{key|line1\nline2...}"]` followed
by a newline (the `\n` between field lines is the two-character escape the
renderer interprets, exactly as in the Python f-strings). -/
def classBlock (idx : Nat) (key : String) (lines : List String) : String :=
  "    " ++ toString idx ++ "[label = \"\x7b" ++ key ++ "|"
    ++ String.intercalate "\\n" lines ++ "\x7d\"]\n"

/-- The `for _type, message in types.items()` loop of `_get_uml_template`:
a local running counter starting at 2 numbers the node blocks, while the
edges inside use `message_mapping` lookups.  Returns (class blocks,
relationship strings). -/
def umlLoop (type_mapping : List (Nat × String))
    (message_mapping : List (String × Nat)) :
    List (String × MessageType) → Nat → Option (List String × List String)
  | [], _ => some ([], [])
  | (key, message) :: rest, entry_index =>
    match processFields type_mapping message_mapping key message.fields with
    | none => none
    | some (lines, es) =>
      match umlLoop type_mapping message_mapping rest (entry_index + 1) with
      | none => none
      | some (cs, rs) => some (classBlock entry_index key lines :: cs, es ++ rs)

/-- The node blocks and relationship edges of one render, in emission
order. -/
def getUmlParts (types : List (String × MessageType))
    (type_mapping : List (Nat × String))
    (message_mapping : List (String × Nat)) :
    Option (List String × List String) :=
  umlLoop type_mapping message_mapping types 2

/-- The fixed document skeleton of `_get_uml_template`, with the two
placeholder regions. -/
def umlSkeleton : String :=
  "\n        digraph \"Protobuf UML class diagram\" \x7b\n            fontname = \"Bitstream Vera Sans\"\n            fontsize = 8\n\n            node [\n                fontname = \"Bitstream Vera Sans\"\n                fontsize = 8\n                shape = \"record\"\n                style=filled\n                fillcolor=gray95\n            ]\n\n            edge [\n                fontname = \"Bitstream Vera Sans\"\n                fontsize = 8\n\n            ]\n\n    CLASSES\n\n    RELATIONSHIPS\n        \x7d\n        "

/-- `_get_uml_template`: fill the `CLASSES` and `RELATIONSHIPS` regions of
the skeleton with the newline-joined blocks and edges. -/
def getUmlTemplate (types : List (String × MessageType))
    (type_mapping : List (Nat × String))
    (message_mapping : List (String × Nat)) : Option String :=
  match getUmlParts types type_mapping message_mapping with
  | none => none
  | some (classes, relationships) =>
    some (pyReplace (pyReplace umlSkeleton "CLASSES" (String.intercalate "\n" classes))
      "RELATIONSHIPS" (String.intercalate "\n" relationships))

/-- Variant of the type loop in which the node-block label index is not the
local running counter but the type's `NodeIndexTable` entry: the canonical
single-indexing-scheme reading of the spec, used to state that the two
numbering schemes coincide. -/
def umlLoopByTable (type_mapping : List (Nat × String))
    (message_mapping : List (String × Nat)) :
    List (String × MessageType) → Option (List String × List String)
  | [] => some ([], [])
  | (key, message) :: rest =>
    match odLookup message_mapping key with
    | none => none
    | some idx =>
      match processFields type_mapping message_mapping key message.fields with
      | none => none
      | some (lines, es) =>
        match umlLoopByTable type_mapping message_mapping rest with
        | none => none
        | some (cs, rs) => some (classBlock idx key lines :: cs, es ++ rs)

/-- `getUmlParts` with every node block numbered from `NodeIndexTable`. -/
def getUmlPartsByTable (types : List (String × MessageType))
    (type_mapping : List (Nat × String))
    (message_mapping : List (String × Nat)) :
    Option (List String × List String) :=
  umlLoopByTable type_mapping message_mapping types

/-! ## Diagram builder orchestration (`Diagram`) -/

/-- The Python exceptions the orchestration steps can raise.  `valueError`
carries the descriptive message of an explicit validation; the other
constructors are unhandled runtime errors. -/
inductive PyErr where
  | valueError (msg : String)
  | attributeError (msg : String)
  | importError (name : String)
  | keyError
  | recursionError
deriving DecidableEq

/-- `Path(p).stem`: the final path component without its last suffix. -/
def pathStem (p : String) : String :=
  let comp := ((p.data.reverse.takeWhile (fun c => c ≠ '/')).reverse)
  let rev := comp.reverse
  match rev.findIdx? (fun c => c = '.') with
  | none => comp.asString
  | some i => if i + 1 = rev.length then comp.asString else ((rev.drop (i + 1)).reverse).asString

/-- The `Diagram` builder object: `_proto_module` and `_rendered_filename`
both start as `None`. -/
structure Diagram where
  proto_module : Option ProtoFile
  rendered_filename : Option String
deriving DecidableEq

/-- A freshly constructed `Diagram()`. -/
def Diagram.init : Diagram := ⟨none, none⟩

/-- `Diagram.from_file`: validate that a proto identifier was supplied,
then import the compiled module (an unresolvable module raises an import
error). -/
def Diagram.from_file (env : Env) (proto_file : String) (d : Diagram) :
    Except PyErr Diagram :=
  if proto_file = "" then .error (.valueError "Missing proto file!")
  else
    match odLookup env (moduleNameOf proto_file) with
    | none => .error (.importError (moduleNameOf proto_file))
    | some pf => .ok { d with proto_module := some pf }

/-- `Diagram.to_file`: validate that an output location was supplied, then
read `self._proto_module.__file__` — when no module has been loaded this is
`None.__file__`, an `AttributeError`, not a validation. -/
def Diagram.to_file (output : String) (d : Diagram) : Except PyErr Diagram :=
  if output = "" then .error (.valueError "Missing output location!")
  else
    match d.proto_module with
    | none =>
      .error (.attributeError "'NoneType' object has no attribute '__file__'")
    | some pf =>
      .ok { d with
        rendered_filename := some (output ++ "/" ++ pathStem pf.module_file) }

/-- `Diagram.build`: validate the module and the output location, then run
the mapping builder on the process-global tables `g` and generate the
document handed to the renderer.  On success the result carries the new
global tables and the document text. -/
def Diagram.build (env : Env) (fuel : Nat) (g : Mappings) (d : Diagram) :
    Except PyErr (Mappings × String) :=
  match d.proto_module with
  | none => .error (.valueError "No Protobuf Python module!")
  | some pf =>
    match d.rendered_filename with
    | none => .error (.valueError "No output location!")
    | some _ =>
      match buildMappings env fuel pf g with
      | .error (.loadError dep) => .error (.importError (moduleNameOf dep))
      | .error .outOfFuel => .error .recursionError
      | .ok m =>
        match getUmlTemplate m.types m.type_mapping m.message_mapping with
        | none => .error .keyError
        | some uml => .ok (m, uml)

/-! ## Import chains and cycles -/

/-- `chainTo env f c g`: starting from file `f`, following the dependency
names listed in `c` in order (each declared by the current file and
resolving through the module loader) ends at file `g`. -/
def chainTo (env : Env) : ProtoFile → List String → ProtoFile → Bool
  | f, [], g => f = g
  | f, d :: ds, g =>
    f.dependencies.contains d &&
      match resolveDep env d with
      | none => false
      | some h => chainTo env h ds g

/-- Every file reachable from `root` has all of its declared dependencies
resolvable: the whole closure loads. -/
def AllResolvable (env : Env) (root : ProtoFile) : Prop :=
  ∀ g c, chainTo env root c g = true →
    ∀ d ∈ g.dependencies, (resolveDep env d).isSome = true

/-- The closure of `root` contains an import cycle: some reachable file
has a non-empty import chain back to itself. -/
def HasCycle (env : Env) (root : ProtoFile) : Prop :=
  ∃ g c₁ c₂, chainTo env root c₁ g = true ∧ c₂ ≠ [] ∧ chainTo env g c₂ g = true

/-! ## Specification-side definitions used to state the claims -/

/-- The value of the last entry of `ps` with key `k`, if any: the value a
key holds after a dict absorbs the updates `ps` in order. -/
def lastWrite {α β : Type} [DecidableEq α] (ps : List (α × β)) (k : α) :
    Option β :=
  odLookup ps.reverse k

/-- `enumFrom s ks`: the keys `ks` paired with consecutive indices starting
at `s` — the normal form of `NodeIndexTable`. -/
def enumFrom : Nat → List String → List (String × Nat)
  | _, [] => []
  | s, k :: ks => (k, s) :: enumFrom (s + 1) ks

/-- The builder invariant: the type table has no duplicate keys and the
node-index table is exactly the enumeration of the type table. -/
def MappingsInv (m : Mappings) : Prop :=
  (keysOf m.types).Nodup ∧ m.message_mapping = getMessageMapping m.types

/-- Fold of the per-file table-building step over a list of files: the
effect of one traversal whose visit order is `l`. -/
def foldSteps (l : List ProtoFile) (m : Mappings) : Mappings :=
  l.foldl (fun acc g => buildMappingsStep g acc) m

/-- The concatenated message-type updates a traversal visiting `l` applies
to the type table. -/
def msgsOfFiles : List ProtoFile → List (String × MessageType)
  | [] => []
  | g :: l => g.message_types_by_name ++ msgsOfFiles l

/-- The concatenated updates a traversal visiting `l` applies to the
type-code table: one copy of the enumeration per visited file. -/
def tmOpsOfFiles : List ProtoFile → List (Nat × String)
  | [] => []
  | _ :: l => typeMappingItems ++ tmOpsOfFiles l

/-- The edge strings one field contributes to the relationship list:
exactly one edge, from the owning type's node index to the referenced
type's node index, when the field references a message type whose indices
are in the table; no edge otherwise. -/
def fieldEdges (message_mapping : List (String × Nat)) (key : String)
    (f : Field) : List String :=
  match f.message_type with
  | none => []
  | some ref =>
    match odLookup message_mapping key, odLookup message_mapping ref with
    | some this_node, some that_node =>
      ["    " ++ toString this_node ++ "->" ++ toString that_node]
    | _, _ => []

/-- The edges contributed by a field list, in field order. -/
def fieldsEdges (message_mapping : List (String × Nat)) (key : String) :
    List Field → List String
  | [] => []
  | f :: fs =>
    fieldEdges message_mapping key f ++ fieldsEdges message_mapping key fs

/-- The edges contributed by the whole type table, in iteration order. -/
def typesEdges (message_mapping : List (String × Nat)) :
    List (String × MessageType) → List String
  | [] => []
  | (key, message) :: rest =>
    fieldsEdges message_mapping key message.fields
      ++ typesEdges message_mapping rest

/-! ## Concrete schemas used to instantiate the theorems

The determinism scenario of the spec: a root schema declaring
`Order { id: int32; customer: Customer }` importing a schema declaring
`Customer { name: string }`; a disjoint second schema; and a
self-importing schema for the cycle scenario. -/

def customerMsg : MessageType := ⟨"Customer", [⟨"name", 9, none⟩]⟩

def customerFile : ProtoFile := ⟨[("Customer", customerMsg)], [], "/gen/customer_pb2.py"⟩

def orderMsg : MessageType := ⟨"Order", [⟨"id", 5, none⟩, ⟨"customer", 11, some "Customer"⟩]⟩

def orderFile : ProtoFile := ⟨[("Order", orderMsg)], ["customer.proto"], "/gen/order_pb2.py"⟩

def exEnv : Env := [("order_pb2", orderFile), ("customer_pb2", customerFile)]

def otherMsg : MessageType := ⟨"Other", [⟨"tag", 9, none⟩]⟩

def otherFile : ProtoFile := ⟨[("Other", otherMsg)], [], "/gen/other_pb2.py"⟩

def otherEnv : Env := [("other_pb2", otherFile)]

def selfLoopFile : ProtoFile := ⟨[], ["a.proto"], "/gen/a_pb2.py"⟩

def selfLoopEnv : Env := [("a_pb2", selfLoopFile)]

/-- A small concrete table triple for instantiating the generator. -/
def exTypes : List (String × MessageType) :=
  [("Order", orderMsg), ("Customer", customerMsg)]

def exTm : List (Nat × String) := [(5, "int32"), (9, "string"), (11, "message")]

def exMm : List (String × Nat) := [("Order", 2), ("Customer", 3)]

def orderBlock : String :=
  "    2[label = \"\x7bOrder|+ id:int32\\n+ customer:Customer\x7d\"]\n"

def customerBlock : String :=
  "    3[label = \"\x7bCustomer|+ name:string\x7d\"]\n"

/-- The tables after building the Order/Customer closure from the empty
process state. -/
def exBuilt : Mappings :=
  match buildMappings exEnv 2 orderFile emptyMappings with
  | .ok r => r
  | .error _ => emptyMappings

/-- The tables after building the Order/Customer closure a second time, on
the process state left by the first build. -/
def exBuilt2 : Mappings :=
  match buildMappings exEnv 2 orderFile exBuilt with
  | .ok r => r
  | .error _ => emptyMappings

/-- The tables after building the disjoint Other closure on the process
state left by the Order/Customer build. -/
def exBuilt3 : Mappings :=
  match buildMappings otherEnv 1 otherFile exBuilt with
  | .ok r => r
  | .error _ => emptyMappings

/-! ## Unfolding lemmas for the fuelled recursions -/

theorem buildMappings_zero (env : Env) (f : ProtoFile) (m : Mappings) :
    buildMappings env 0 f m = .error .outOfFuel := rfl

theorem buildMappings_succ (env : Env) (n : Nat) (f : ProtoFile) (m : Mappings) :
    buildMappings env (n + 1) f m
      = buildDepsWith env (buildMappings env n) f.dependencies
          (buildMappingsStep f m) := rfl

theorem visitTrace_zero (env : Env) (f : ProtoFile) :
    visitTrace env 0 f = .error .outOfFuel := rfl

theorem visitTrace_succ (env : Env) (n : Nat) (f : ProtoFile) :
    visitTrace env (n + 1) f
      = match depsTraceWith env (visitTrace env n) f.dependencies with
        | .error e => .error e
        | .ok l => .ok (f :: l) := rfl

/-! ## Lemmas about ordered dictionaries -/

section Dict

variable {α β : Type} [DecidableEq α]

theorem odLookup_nil (a : α) : odLookup ([] : List (α × β)) a = none := rfl

theorem mem_keysOf {d : List (α × β)} {k : α} :
    k ∈ keysOf d ↔ ∃ v, (k, v) ∈ d := by
  unfold keysOf
  rw [List.mem_map]
  constructor
  · rintro ⟨⟨a, b⟩, hm, rfl⟩
    exact ⟨b, hm⟩
  · rintro ⟨v, hv⟩
    exact ⟨(k, v), hv, rfl⟩

theorem odLookup_cons (p : α × β) (t : List (α × β)) (a : α) :
    odLookup (p :: t) a = if p.1 = a then some p.2 else odLookup t a := by
  by_cases h : p.1 = a <;> simp [odLookup, List.find?_cons, h]

theorem keysOf_nil : keysOf ([] : List (α × β)) = [] := rfl

theorem keysOf_cons (p : α × β) (t : List (α × β)) :
    keysOf (p :: t) = p.1 :: keysOf t := rfl

theorem keysOf_append (d e : List (α × β)) :
    keysOf (d ++ e) = keysOf d ++ keysOf e := by
  simp [keysOf]

theorem odLookup_eq_none {d : List (α × β)} {k : α} :
    odLookup d k = none ↔ k ∉ keysOf d := by
  induction d with
  | nil => simp [odLookup_nil, keysOf_nil]
  | cons p t ih =>
    rw [odLookup_cons, keysOf_cons]
    by_cases h : p.1 = k
    · simp [h]
    · simp only [if_neg h, List.mem_cons, ih]
      constructor
      · rintro hn (rfl | hm)
        · exact h rfl
        · exact hn hm
      · intro hn hm
        exact hn (Or.inr hm)

theorem odLookup_isSome {d : List (α × β)} {k : α} :
    (odLookup d k).isSome = true ↔ k ∈ keysOf d := by
  rw [Option.isSome_iff_ne_none]
  constructor
  · intro h
    by_contra hk
    exact h (odLookup_eq_none.mpr hk)
  · intro h hn
    exact odLookup_eq_none.mp hn h

theorem odLookup_mem {d : List (α × β)} {k : α} {v : β}
    (h : odLookup d k = some v) : (k, v) ∈ d := by
  induction d with
  | nil => simp [odLookup_nil] at h
  | cons p t ih =>
    rw [odLookup_cons] at h
    by_cases hp : p.1 = k
    · rw [if_pos hp] at h
      injection h with h
      obtain ⟨pa, pb⟩ := p
      simp only at hp h
      subst hp
      subst h
      exact List.mem_cons_self _ _
    · rw [if_neg hp] at h
      exact List.mem_cons_of_mem _ (ih h)

theorem mem_keysOf_of_odLookup {d : List (α × β)} {k : α} {v : β}
    (h : odLookup d k = some v) : k ∈ keysOf d := by
  rw [← odLookup_isSome, h]
  rfl

theorem keysOf_odUpdate_of_mem {d : List (α × β)} {k : α} (v : β)
    (h : k ∈ keysOf d) : keysOf (odUpdate d k v) = keysOf d := by
  unfold odUpdate
  rw [if_pos h]
  simp only [keysOf, List.map_map]
  apply List.map_congr_left
  rintro ⟨a, b⟩ _
  by_cases hak : a = k <;> simp [hak]

theorem keysOf_odUpdate_of_not_mem {d : List (α × β)} {k : α} (v : β)
    (h : k ∉ keysOf d) : keysOf (odUpdate d k v) = keysOf d ++ [k] := by
  unfold odUpdate
  rw [if_neg h, keysOf_append]
  rfl

theorem nodup_keysOf_odUpdate {d : List (α × β)} {k : α} {v : β}
    (h : (keysOf d).Nodup) : (keysOf (odUpdate d k v)).Nodup := by
  by_cases hk : k ∈ keysOf d
  · rw [keysOf_odUpdate_of_mem v hk]
    exact h
  · rw [keysOf_odUpdate_of_not_mem v hk]
    simpa [List.nodup_append] using ⟨h, hk⟩

theorem odLookup_odUpdate_self (d : List (α × β)) (k : α) (v : β) :
    odLookup (odUpdate d k v) k = some v := by
  unfold odUpdate
  by_cases hk : k ∈ keysOf d
  · rw [if_pos hk]
    induction d with
    | nil => simp [keysOf_nil] at hk
    | cons p t ih =>
      by_cases hpk : p.1 = k
      · simp [odLookup_cons, hpk]
      · rw [keysOf_cons, List.mem_cons] at hk
        have ht : k ∈ keysOf t := by
          rcases hk with h | h
          · exact absurd h.symm hpk
          · exact h
        simpa [odLookup_cons, hpk] using ih ht
  · rw [if_neg hk]
    induction d with
    | nil => simp [odLookup_cons]
    | cons p t ih =>
      rw [keysOf_cons, List.mem_cons] at hk
      push_neg at hk
      have hpk : ¬p.1 = k := fun hc => hk.1 hc.symm
      rw [List.cons_append, odLookup_cons, if_neg hpk]
      exact ih hk.2

theorem map_replace_of_not_mem {d : List (α × β)} {k : α} {v : β}
    (h : k ∉ keysOf d) :
    d.map (fun p => if p.1 = k then (k, v) else p) = d := by
  induction d with
  | nil => rfl
  | cons p t ih =>
    rw [keysOf_cons, List.mem_cons] at h
    push_neg at h
    rw [List.map_cons, if_neg (fun hc => h.1 hc.symm), ih h.2]

theorem odLookup_odUpdate_ne (d : List (α × β)) {a k : α} (v : β)
    (h : a ≠ k) : odLookup (odUpdate d k v) a = odLookup d a := by
  unfold odUpdate
  by_cases hk : k ∈ keysOf d
  · rw [if_pos hk]
    clear hk
    induction d with
    | nil => simp
    | cons p t ih =>
      by_cases hpk : p.1 = k
      · have hpa : ¬p.1 = a := fun hc => h (hc ▸ hpk)
        have hka : ¬k = a := fun hc => h hc.symm
        rw [List.map_cons, if_pos hpk, odLookup_cons, odLookup_cons,
          if_neg hka, if_neg hpa]
        exact ih
      · rw [List.map_cons, if_neg hpk, odLookup_cons, odLookup_cons]
        by_cases hpa : p.1 = a
        · rw [if_pos hpa, if_pos hpa]
        · rw [if_neg hpa, if_neg hpa]
          exact ih
  · rw [if_neg hk]
    induction d with
    | nil => simp [odLookup_cons, odLookup_nil, Ne.symm h]
    | cons p t ih =>
      rw [keysOf_cons, List.mem_cons] at hk
      push_neg at hk
      rw [List.cons_append, odLookup_cons, odLookup_cons]
      by_cases hpa : p.1 = a
      · rw [if_pos hpa, if_pos hpa]
      · rw [if_neg hpa, if_neg hpa]
        exact ih hk.2

theorem mem_keysOf_odUpdate_of_mem {d : List (α × β)} {a k : α} (v : β)
    (h : a ∈ keysOf d) : a ∈ keysOf (odUpdate d k v) := by
  by_cases hk : k ∈ keysOf d
  · rw [keysOf_odUpdate_of_mem v hk]
    exact h
  · rw [keysOf_odUpdate_of_not_mem v hk]
    exact List.mem_append_left _ h

theorem self_mem_keysOf_odUpdate (d : List (α × β)) (k : α) (v : β) :
    k ∈ keysOf (odUpdate d k v) := by
  by_cases hk : k ∈ keysOf d
  · rw [keysOf_odUpdate_of_mem v hk]
    exact hk
  · rw [keysOf_odUpdate_of_not_mem v hk]
    simp

theorem odLookup_append (d e : List (α × β)) (a : α) :
    odLookup (d ++ e) a = (odLookup d a).or (odLookup e a) := by
  induction d with
  | nil => simp [odLookup_nil]
  | cons p t ih =>
    rw [List.cons_append, odLookup_cons, odLookup_cons]
    by_cases h : p.1 = a <;> simp [h, ih]

theorem odUpdateAll_nil (d : List (α × β)) : odUpdateAll d [] = d := rfl

theorem odUpdateAll_cons (d : List (α × β)) (p : α × β) (ps : List (α × β)) :
    odUpdateAll d (p :: ps) = odUpdateAll (odUpdate d p.1 p.2) ps := rfl

theorem odUpdateAll_append (d ps qs : List (α × β)) :
    odUpdateAll d (ps ++ qs) = odUpdateAll (odUpdateAll d ps) qs := by
  simp [odUpdateAll, List.foldl_append]

theorem lastWrite_nil (k : α) : lastWrite ([] : List (α × β)) k = none := rfl

theorem lastWrite_cons (p : α × β) (ps : List (α × β)) (k : α) :
    lastWrite (p :: ps) k
      = (lastWrite ps k).or (if p.1 = k then some p.2 else none) := by
  unfold lastWrite
  rw [List.reverse_cons, odLookup_append]
  congr 1
  by_cases h : p.1 = k <;> simp [odLookup_cons, odLookup_nil, h]

theorem lastWrite_eq_none {ps : List (α × β)} {k : α} :
    lastWrite ps k = none ↔ k ∉ keysOf ps := by
  unfold lastWrite
  rw [odLookup_eq_none]
  unfold keysOf
  rw [List.map_reverse, List.mem_reverse]

theorem odLookup_odUpdateAll (d ps : List (α × β)) (k : α) :
    odLookup (odUpdateAll d ps) k = (lastWrite ps k).or (odLookup d k) := by
  induction ps generalizing d with
  | nil => simp [odUpdateAll_nil, lastWrite_nil]
  | cons p ps ih =>
    rw [odUpdateAll_cons, ih, lastWrite_cons]
    have hupd : odLookup (odUpdate d p.1 p.2) k
        = if p.1 = k then some p.2 else odLookup d k := by
      by_cases h : p.1 = k
      · rw [if_pos h, ← h, odLookup_odUpdate_self]
      · rw [if_neg h, odLookup_odUpdate_ne _ _ (fun hc => h hc.symm)]
    rw [hupd]
    cases lastWrite ps k <;> by_cases h : p.1 = k <;> simp [h]

theorem odLookup_odUpdateAll_of_not_mem {d ps : List (α × β)} {k : α}
    (h : k ∉ keysOf ps) : odLookup (odUpdateAll d ps) k = odLookup d k := by
  rw [odLookup_odUpdateAll, lastWrite_eq_none.mpr h]
  rfl

theorem mem_keysOf_odUpdateAll_left {d : List (α × β)} (ps : List (α × β))
    {a : α} (h : a ∈ keysOf d) : a ∈ keysOf (odUpdateAll d ps) := by
  induction ps generalizing d with
  | nil => exact h
  | cons p ps ih =>
    rw [odUpdateAll_cons]
    exact ih (mem_keysOf_odUpdate_of_mem _ h)

theorem mem_keysOf_odUpdateAll_right (d : List (α × β)) {ps : List (α × β)}
    {a : α} (h : a ∈ keysOf ps) : a ∈ keysOf (odUpdateAll d ps) := by
  induction ps generalizing d with
  | nil => simp [keysOf_nil] at h
  | cons p ps ih =>
    rw [keysOf_cons, List.mem_cons] at h
    rw [odUpdateAll_cons]
    rcases h with rfl | h
    · exact mem_keysOf_odUpdateAll_left ps (self_mem_keysOf_odUpdate d _ p.2)
    · exact ih _ h

theorem keysOf_odUpdateAll_exists (d ps : List (α × β)) :
    ∃ ns, keysOf (odUpdateAll d ps) = keysOf d ++ ns
      ∧ (∀ a ∈ ns, a ∈ keysOf ps) := by
  induction ps generalizing d with
  | nil => exact ⟨[], by simp [odUpdateAll_nil], by simp⟩
  | cons p ps ih =>
    rw [odUpdateAll_cons]
    obtain ⟨ns, hk, hsub⟩ := ih (odUpdate d p.1 p.2)
    by_cases hp : p.1 ∈ keysOf d
    · refine ⟨ns, ?_, ?_⟩
      · rw [hk, keysOf_odUpdate_of_mem _ hp]
      · intro a ha
        rw [keysOf_cons]
        exact List.mem_cons_of_mem _ (hsub a ha)
    · refine ⟨p.1 :: ns, ?_, ?_⟩
      · rw [hk, keysOf_odUpdate_of_not_mem _ hp, List.append_assoc]
        rfl
      · intro a ha
        rw [keysOf_cons]
        rcases List.mem_cons.mp ha with rfl | h
        · exact List.mem_cons_self _ _
        · exact List.mem_cons_of_mem _ (hsub a h)

theorem nodup_keysOf_odUpdateAll {d : List (α × β)} (ps : List (α × β))
    (h : (keysOf d).Nodup) : (keysOf (odUpdateAll d ps)).Nodup := by
  induction ps generalizing d with
  | nil => exact h
  | cons p ps ih =>
    rw [odUpdateAll_cons]
    exact ih (nodup_keysOf_odUpdate h)

theorem keysOf_odUpdateAll_of_subset {d ps : List (α × β)}
    (h : ∀ a ∈ keysOf ps, a ∈ keysOf d) :
    keysOf (odUpdateAll d ps) = keysOf d := by
  induction ps generalizing d with
  | nil => rfl
  | cons p ps ih =>
    rw [odUpdateAll_cons]
    have hp : p.1 ∈ keysOf d := h p.1 (by simp [keysOf_cons])
    rw [ih, keysOf_odUpdate_of_mem _ hp]
    intro a ha
    rw [keysOf_odUpdate_of_mem _ hp]
    exact h a (by rw [keysOf_cons]; exact List.mem_cons_of_mem _ ha)

theorem alist_ext : ∀ {d1 d2 : List (α × β)}, keysOf d1 = keysOf d2 →
    (keysOf d1).Nodup → (∀ k, odLookup d1 k = odLookup d2 k) → d1 = d2
  | [], [], _, _, _ => rfl
  | [], q :: t2, hk, _, _ => by simp [keysOf_nil, keysOf_cons] at hk
  | p :: t1, [], hk, _, _ => by simp [keysOf_nil, keysOf_cons] at hk
  | p :: t1, q :: t2, hk, hn, hl => by
    rw [keysOf_cons, keysOf_cons] at hk
    injection hk with hk1 hk2
    have hv : p.2 = q.2 := by
      have := hl p.1
      rw [odLookup_cons, odLookup_cons, if_pos rfl, if_pos hk1.symm] at this
      injection this
    have hpe : p = q := Prod.ext hk1 hv
    have hn1 : p.1 ∉ keysOf t1 := by
      rw [keysOf_cons] at hn
      exact (List.nodup_cons.mp hn).1
    have hn2 : p.1 ∉ keysOf t2 := by
      rw [← hk2]
      exact hn1
    have htl : ∀ k, odLookup t1 k = odLookup t2 k := by
      intro k
      by_cases hkp : k = p.1
      · subst hkp
        rw [odLookup_eq_none.mpr hn1, odLookup_eq_none.mpr hn2]
      · have := hl k
        rw [odLookup_cons, odLookup_cons, if_neg (fun hc => hkp hc.symm),
          if_neg (fun hc => hkp (hk1.trans hc).symm)] at this
        exact this
    have hnt : (keysOf t1).Nodup := by
      rw [keysOf_cons] at hn
      exact (List.nodup_cons.mp hn).2
    rw [hpe, alist_ext hk2 hnt htl]

theorem odUpdateAll_self {d : List (α × β)} (ps : List (α × β))
    (hn : (keysOf d).Nodup) :
    odUpdateAll (odUpdateAll d ps) ps = odUpdateAll d ps := by
  apply alist_ext
  · apply keysOf_odUpdateAll_of_subset
    intro a ha
    exact mem_keysOf_odUpdateAll_right d ha
  · exact nodup_keysOf_odUpdateAll ps (nodup_keysOf_odUpdateAll ps hn)
  · intro k
    rw [odLookup_odUpdateAll, odLookup_odUpdateAll]
    cases lastWrite ps k <;> simp

theorem odUpdate_eq_self {d : List (α × β)} {k : α} {v : β}
    (hn : (keysOf d).Nodup) (h : odLookup d k = some v) :
    odUpdate d k v = d := by
  have hk : k ∈ keysOf d := mem_keysOf_of_odLookup h
  apply alist_ext
  · exact keysOf_odUpdate_of_mem v hk
  · rw [keysOf_odUpdate_of_mem v hk]
    exact hn
  · intro a
    by_cases hak : a = k
    · subst hak
      rw [odLookup_odUpdate_self, h]
    · rw [odLookup_odUpdate_ne _ _ hak]

theorem odUpdateAll_of_lookup {d : List (α × β)} {ps : List (α × β)}
    (hn : (keysOf d).Nodup) (h : ∀ p ∈ ps, odLookup d p.1 = some p.2) :
    odUpdateAll d ps = d := by
  induction ps with
  | nil => rfl
  | cons p ps ih =>
    rw [odUpdateAll_cons, odUpdate_eq_self hn (h p (List.mem_cons_self _ _))]
    exact ih (fun q hq => h q (List.mem_cons_of_mem _ hq))

theorem odUpdateAll_fresh {d ps : List (α × β)}
    (hn : (keysOf ps).Nodup) (h : ∀ a ∈ keysOf ps, a ∉ keysOf d) :
    odUpdateAll d ps = d ++ ps := by
  induction ps generalizing d with
  | nil => simp [odUpdateAll_nil]
  | cons p ps ih =>
    rw [odUpdateAll_cons]
    have hp : p.1 ∉ keysOf d := h p.1 (by simp [keysOf_cons])
    have hupd : odUpdate d p.1 p.2 = d ++ [p] := by
      unfold odUpdate
      rw [if_neg hp]
    rw [hupd, keysOf_cons] at *
    rw [ih]
    · simp
    · exact (List.nodup_cons.mp hn).2
    · intro a ha
      rw [keysOf_append]
      intro hmem
      rcases List.mem_append.mp hmem with hd | hs
      · exact h a (List.mem_cons_of_mem _ ha) hd
      · have : a = p.1 := by simpa [keysOf] using hs
        exact ((List.nodup_cons.mp hn).1 (this ▸ ha))

end Dict

/-! ## Lemmas about `enumFrom` and `_get_message_mapping` -/

theorem keysOf_enumFrom (s : Nat) (ks : List String) :
    keysOf (enumFrom s ks) = ks := by
  induction ks generalizing s with
  | nil => rfl
  | cons k ks ih => simp [enumFrom, keysOf_cons, ih]

theorem enumFrom_append (s : Nat) (ks ns : List String) :
    enumFrom s (ks ++ ns) = enumFrom s ks ++ enumFrom (s + ks.length) ns := by
  induction ks generalizing s with
  | nil => simp [enumFrom]
  | cons k ks ih =>
    simp only [List.cons_append, List.append_eq, enumFrom, List.length_cons]
    rw [ih (s + 1), show s + (ks.length + 1) = s + 1 + ks.length from by omega]

theorem odLookup_enumFrom_get? {ks : List String} {k : String} {j : Nat}
    (hn : ks.Nodup) (hj : ks.get? j = some k) :
    odLookup (enumFrom s ks) k = some (s + j) := by
  induction ks generalizing s j with
  | nil => simp at hj
  | cons a ks ih =>
    match j with
    | 0 =>
      simp only [List.get?] at hj
      injection hj with hj
      subst hj
      simp [enumFrom, odLookup_cons]
    | j + 1 =>
      simp only [List.get?] at hj
      have hmem : k ∈ ks := List.get?_mem hj
      have hak : ¬a = k := by
        intro hc
        subst hc
        exact (List.nodup_cons.mp hn).1 hmem
      rw [enumFrom, odLookup_cons, if_neg hak,
        ih (List.nodup_cons.mp hn).2 hj]
      congr 1
      omega

theorem odLookup_enumFrom_some {ks : List String} {k : String} {i : Nat}
    (h : odLookup (enumFrom s ks) k = some i) :
    ∃ j, ks.get? j = some k ∧ i = s + j := by
  induction ks generalizing s with
  | nil => simp [enumFrom, odLookup_nil] at h
  | cons a ks ih =>
    rw [enumFrom, odLookup_cons] at h
    by_cases hak : a = k
    · rw [if_pos hak] at h
      injection h with h
      exact ⟨0, by simp [hak], by omega⟩
    · rw [if_neg hak] at h
      obtain ⟨j, hj, hi⟩ := ih h
      exact ⟨j + 1, by simpa using hj, by omega⟩

theorem mem_enumFrom {ks : List String} {p : String × Nat}
    (h : p ∈ enumFrom s ks) : ∃ j, ks.get? j = some p.1 ∧ p.2 = s + j := by
  induction ks generalizing s with
  | nil => simp [enumFrom] at h
  | cons a ks ih =>
    rw [enumFrom] at h
    rcases List.mem_cons.mp h with rfl | h
    · exact ⟨0, rfl, by omega⟩
    · obtain ⟨j, hj, hp⟩ := ih h
      exact ⟨j + 1, by simpa using hj, by omega⟩

theorem getMessageMapping_aux (ts : List (String × MessageType)) :
    ∀ (acc : List (String × Nat)) (s : Nat), (keysOf ts).Nodup →
    (∀ a ∈ keysOf ts, a ∉ keysOf acc) →
    (ts.foldl (fun acc p => (odUpdate acc.1 p.1 acc.2, acc.2 + 1)) (acc, s)).1
      = acc ++ enumFrom s (keysOf ts) := by
  induction ts with
  | nil => intro acc s _ _; simp [enumFrom]
  | cons p ts ih =>
    intro acc s hn hd
    rw [keysOf_cons] at hn hd
    have hp : p.1 ∉ keysOf acc := hd p.1 (List.mem_cons_self _ _)
    have hupd : odUpdate acc p.1 s = acc ++ [(p.1, s)] := by
      unfold odUpdate
      rw [if_neg hp]
    rw [List.foldl_cons, hupd, ih (acc ++ [(p.1, s)]) (s + 1)
      (List.nodup_cons.mp hn).2 ?_, keysOf_cons, enumFrom]
    · simp
    · intro a ha
      rw [keysOf_append]
      intro hmem
      rcases List.mem_append.mp hmem with hacc | hs
      · exact hd a (List.mem_cons_of_mem _ ha) hacc
      · have : a = p.1 := by simpa [keysOf] using hs
        exact (List.nodup_cons.mp hn).1 (this ▸ ha)

theorem getMessageMapping_eq_enumFrom {ts : List (String × MessageType)}
    (hn : (keysOf ts).Nodup) :
    getMessageMapping ts = enumFrom 2 (keysOf ts) := by
  unfold getMessageMapping
  rw [getMessageMapping_aux ts [] 2 hn (by simp [keysOf_nil])]
  rfl

theorem odUpdateAll_enumFrom {K N : List String} (s : Nat)
    (hn : (K ++ N).Nodup) :
    odUpdateAll (enumFrom s K) (enumFrom s (K ++ N)) = enumFrom s (K ++ N) := by
  rw [enumFrom_append, odUpdateAll_append]
  have h1 : odUpdateAll (enumFrom s K) (enumFrom s K) = enumFrom s K := by
    apply odUpdateAll_of_lookup
    · rw [keysOf_enumFrom]
      exact (List.nodup_append.mp hn).1
    · intro p hp
      obtain ⟨j, hj, hv⟩ := mem_enumFrom hp
      rw [hv]
      exact odLookup_enumFrom_get? (List.nodup_append.mp hn).1 hj
  rw [h1]
  apply odUpdateAll_fresh
  · rw [keysOf_enumFrom]
    exact (List.nodup_append.mp hn).2.1
  · rw [keysOf_enumFrom, keysOf_enumFrom]
    intro a ha hK
    exact (List.nodup_append.mp hn).2.2 hK ha

/-! ## The traversal as a fold over its visit order -/

theorem foldSteps_nil (m : Mappings) : foldSteps [] m = m := rfl

theorem foldSteps_cons (g : ProtoFile) (l : List ProtoFile) (m : Mappings) :
    foldSteps (g :: l) m = foldSteps l (buildMappingsStep g m) := rfl

theorem foldSteps_append (l1 l2 : List ProtoFile) (m : Mappings) :
    foldSteps (l1 ++ l2) m = foldSteps l2 (foldSteps l1 m) := by
  simp [foldSteps, List.foldl_append]

theorem buildDepsWith_eq_trace (env : Env)
    (rec : ProtoFile → Mappings → Except BuildErr Mappings)
    (recT : ProtoFile → Except BuildErr (List ProtoFile))
    (h : ∀ g m, rec g m = (recT g).map (fun l => foldSteps l m)) :
    ∀ ds m, buildDepsWith env rec ds m
      = (depsTraceWith env recT ds).map (fun l => foldSteps l m) := by
  intro ds
  induction ds with
  | nil => intro m; rfl
  | cons d ds ih =>
    intro m
    simp only [buildDepsWith, depsTraceWith]
    cases hres : resolveDep env d with
    | none => rfl
    | some g =>
      dsimp only
      rw [h g m]
      cases htr : recT g with
      | error e => rfl
      | ok l1 =>
        simp only [Except.map]
        rw [ih (foldSteps l1 m)]
        cases hds : depsTraceWith env recT ds with
        | error e => rfl
        | ok l2 => simp [Except.map, foldSteps_append]

theorem buildMappings_eq_trace (env : Env) : ∀ (fuel : Nat) (f : ProtoFile)
    (m : Mappings), buildMappings env fuel f m
      = (visitTrace env fuel f).map (fun l => foldSteps l m) := by
  intro fuel
  induction fuel with
  | zero => intro f m; rfl
  | succ n ih =>
    intro f m
    rw [buildMappings_succ, visitTrace_succ,
      buildDepsWith_eq_trace env _ _ ih]
    cases depsTraceWith env (visitTrace env n) f.dependencies with
    | error e => rfl
    | ok l => simp [Except.map, foldSteps_cons]

theorem types_buildMappingsStep (g : ProtoFile) (m : Mappings) :
    (buildMappingsStep g m).types
      = odUpdateAll m.types g.message_types_by_name := by
  simp only [buildMappingsStep]

theorem type_mapping_buildMappingsStep (g : ProtoFile) (m : Mappings) :
    (buildMappingsStep g m).type_mapping
      = odUpdateAll m.type_mapping typeMappingItems := by
  simp only [buildMappingsStep]

theorem message_mapping_buildMappingsStep (g : ProtoFile) (m : Mappings) :
    (buildMappingsStep g m).message_mapping
      = odUpdateAll m.message_mapping
          (getMessageMapping (odUpdateAll m.types g.message_types_by_name)) := by
  simp only [buildMappingsStep]

theorem types_foldSteps (l : List ProtoFile) : ∀ m : Mappings,
    (foldSteps l m).types = odUpdateAll m.types (msgsOfFiles l) := by
  induction l with
  | nil => intro m; rfl
  | cons g l ih =>
    intro m
    rw [foldSteps_cons, ih, msgsOfFiles, odUpdateAll_append,
      types_buildMappingsStep]

theorem type_mapping_foldSteps (l : List ProtoFile) : ∀ m : Mappings,
    (foldSteps l m).type_mapping
      = odUpdateAll m.type_mapping (tmOpsOfFiles l) := by
  induction l with
  | nil => intro m; rfl
  | cons g l ih =>
    intro m
    rw [foldSteps_cons, ih, tmOpsOfFiles, odUpdateAll_append,
      type_mapping_buildMappingsStep]

/-! ## The builder invariant -/

theorem mappingsInv_empty : MappingsInv emptyMappings :=
  ⟨List.nodup_nil, rfl⟩

theorem mappingsInv_step (g : ProtoFile) {m : Mappings}
    (h : MappingsInv m) : MappingsInv (buildMappingsStep g m) := by
  obtain ⟨hn, hmm⟩ := h
  have hn2 : (keysOf (odUpdateAll m.types g.message_types_by_name)).Nodup :=
    nodup_keysOf_odUpdateAll _ hn
  constructor
  · rw [types_buildMappingsStep]
    exact hn2
  · rw [message_mapping_buildMappingsStep, types_buildMappingsStep, hmm]
    obtain ⟨ns, hks, -⟩ :=
      keysOf_odUpdateAll_exists m.types g.message_types_by_name
    rw [getMessageMapping_eq_enumFrom hn, getMessageMapping_eq_enumFrom hn2,
      hks]
    rw [hks] at hn2
    exact odUpdateAll_enumFrom 2 hn2

theorem mappingsInv_foldSteps (l : List ProtoFile) : ∀ {m : Mappings},
    MappingsInv m → MappingsInv (foldSteps l m) := by
  induction l with
  | nil => intro m h; exact h
  | cons g l ih =>
    intro m h
    rw [foldSteps_cons]
    exact ih (mappingsInv_step g h)

theorem buildMappings_ok_trace {env : Env} {fuel : Nat} {f : ProtoFile}
    {m r : Mappings} (h : buildMappings env fuel f m = .ok r) :
    ∃ l, visitTrace env fuel f = .ok l ∧ r = foldSteps l m := by
  rw [buildMappings_eq_trace] at h
  cases htr : visitTrace env fuel f with
  | error e => rw [htr] at h; exact absurd h (by simp [Except.map])
  | ok l =>
    rw [htr] at h
    simp only [Except.map] at h
    injection h with h
    exact ⟨l, rfl, h.symm⟩

theorem mappingsInv_build {env : Env} {fuel : Nat} {f : ProtoFile}
    {m r : Mappings} (h : buildMappings env fuel f m = .ok r)
    (hm : MappingsInv m) : MappingsInv r := by
  obtain ⟨l, -, rfl⟩ := buildMappings_ok_trace h
  exact mappingsInv_foldSteps l hm

theorem types_keys_build {env : Env} {fuel : Nat} {f : ProtoFile}
    {m r : Mappings} (h : buildMappings env fuel f m = .ok r) :
    ∃ ns, keysOf r.types = keysOf m.types ++ ns := by
  obtain ⟨l, -, rfl⟩ := buildMappings_ok_trace h
  rw [types_foldSteps]
  obtain ⟨ns, hks, -⟩ := keysOf_odUpdateAll_exists m.types (msgsOfFiles l)
  exact ⟨ns, hks⟩

/-! ## The type-code table after a build -/

theorem odLookup_of_mem_nodup {α β : Type} [DecidableEq α]
    {d : List (α × β)} (hn : (keysOf d).Nodup) {k : α} {v : β}
    (h : (k, v) ∈ d) : odLookup d k = some v := by
  induction d with
  | nil => simp at h
  | cons p t ih =>
    rw [odLookup_cons]
    rcases List.mem_cons.mp h with rfl | hm
    · rw [if_pos rfl]
    · by_cases hpk : p.1 = k
      · exfalso
        rw [keysOf_cons] at hn
        have : k ∈ keysOf t := mem_keysOf.mpr ⟨v, hm⟩
        exact (List.nodup_cons.mp hn).1 (hpk ▸ this)
      · rw [if_neg hpk]
        rw [keysOf_cons] at hn
        exact ih (List.nodup_cons.mp hn).2 hm

theorem lastWrite_of_mem_nodup {α β : Type} [DecidableEq α]
    {ps : List (α × β)} (hn : (keysOf ps).Nodup) {k : α} {v : β}
    (h : (k, v) ∈ ps) : lastWrite ps k = some v := by
  unfold lastWrite
  apply odLookup_of_mem_nodup
  · unfold keysOf
    rw [List.map_reverse, List.nodup_reverse]
    exact hn
  · rw [List.mem_reverse]
    exact h

theorem lastWrite_append {α β : Type} [DecidableEq α]
    (ps qs : List (α × β)) (k : α) :
    lastWrite (ps ++ qs) k = (lastWrite qs k).or (lastWrite ps k) := by
  unfold lastWrite
  rw [List.reverse_append, odLookup_append]

theorem lastWrite_tmOps {l : List ProtoFile} (hne : l ≠ []) (k : Nat) :
    lastWrite (tmOpsOfFiles l) k = lastWrite typeMappingItems k := by
  induction l with
  | nil => exact absurd rfl hne
  | cons g l ih =>
    rw [tmOpsOfFiles, lastWrite_append]
    cases hl : l with
    | nil => rw [hl] at *; rw [tmOpsOfFiles, lastWrite_nil]; cases lastWrite typeMappingItems k <;> rfl
    | cons g2 l2 =>
      rw [← hl, ih (by rw [hl]; exact List.cons_ne_nil _ _)]
      cases lastWrite typeMappingItems k <;> rfl

theorem visitTrace_ok_ne_nil {env : Env} {fuel : Nat} {f : ProtoFile}
    {l : List ProtoFile} (h : visitTrace env fuel f = .ok l) : l ≠ [] := by
  cases fuel with
  | zero => rw [visitTrace_zero] at h; exact absurd h (by simp)
  | succ n =>
    rw [visitTrace_succ] at h
    cases hd : depsTraceWith env (visitTrace env n) f.dependencies with
    | error e => rw [hd] at h; exact absurd h (by simp)
    | ok l2 =>
      rw [hd] at h
      injection h with h
      rw [← h]
      exact List.cons_ne_nil _ _

theorem type_mapping_build_lookup {env : Env} {fuel : Nat} {f : ProtoFile}
    {m r : Mappings} (h : buildMappings env fuel f m = .ok r)
    {k : Nat} {v : String} (hkv : (k, v) ∈ typeMappingItems) :
    odLookup r.type_mapping k = some v := by
  obtain ⟨l, htr, rfl⟩ := buildMappings_ok_trace h
  rw [type_mapping_foldSteps, odLookup_odUpdateAll,
    lastWrite_tmOps (visitTrace_ok_ne_nil htr),
    lastWrite_of_mem_nodup (by decide) hkv]
  rfl

theorem message_mapping_preserved {env : Env} {fuel : Nat} {f : ProtoFile}
    {m r : Mappings} (h : buildMappings env fuel f m = .ok r)
    (hm : MappingsInv m) {k : String} {i : Nat}
    (hl : odLookup m.message_mapping k = some i) :
    odLookup r.message_mapping k = some i := by
  have hr := mappingsInv_build h hm
  obtain ⟨ns, hk⟩ := types_keys_build h
  rw [hm.2, getMessageMapping_eq_enumFrom hm.1] at hl
  obtain ⟨j, hj, rfl⟩ := odLookup_enumFrom_some hl
  rw [hr.2, getMessageMapping_eq_enumFrom hr.1, hk]
  have hjlt : j < (keysOf m.types).length := by
    obtain ⟨hlt, -⟩ := List.get?_eq_some.mp hj
    exact hlt
  apply odLookup_enumFrom_get?
  · rw [← hk]
    exact hr.1
  · rw [List.get?_append hjlt]
    exact hj

/-! ## Import chains, cycles, and the traversal's termination behaviour -/

theorem chainTo_nil {env : Env} {f g : ProtoFile} :
    chainTo env f [] g = true ↔ f = g := by
  unfold chainTo
  rw [decide_eq_true_eq]

theorem chainTo_refl (env : Env) (f : ProtoFile) : chainTo env f [] f = true :=
  chainTo_nil.mpr rfl

theorem chainTo_cons {env : Env} {f g : ProtoFile} {d : String}
    {ds : List String} :
    chainTo env f (d :: ds) g = true
      ↔ d ∈ f.dependencies
        ∧ ∃ h, resolveDep env d = some h ∧ chainTo env h ds g = true := by
  constructor
  · intro h2
    unfold chainTo at h2
    rw [Bool.and_eq_true] at h2
    obtain ⟨hc, hm⟩ := h2
    refine ⟨List.mem_of_elem_eq_true hc, ?_⟩
    cases hres : resolveDep env d with
    | none => rw [hres] at hm; exact absurd hm (by simp)
    | some x =>
      rw [hres] at hm
      exact ⟨x, rfl, hm⟩
  · rintro ⟨hd, x, hres, hch⟩
    unfold chainTo
    rw [Bool.and_eq_true]
    refine ⟨List.elem_eq_true_of_mem hd, ?_⟩
    rw [hres]
    exact hch

theorem chainTo_append {env : Env} : ∀ {c1 c2 : List String} {f g : ProtoFile},
    chainTo env f (c1 ++ c2) g = true
      ↔ ∃ mid, chainTo env f c1 mid = true ∧ chainTo env mid c2 g = true := by
  intro c1
  induction c1 with
  | nil =>
    intro c2 f g
    rw [List.nil_append]
    constructor
    · intro h
      exact ⟨f, chainTo_refl env f, h⟩
    · rintro ⟨mid, hm, h⟩
      rw [chainTo_nil.mp hm] at *
      exact h
  | cons d c1 ih =>
    intro c2 f g
    rw [List.cons_append, chainTo_cons]
    constructor
    · rintro ⟨hd, x, hres, hch⟩
      obtain ⟨mid, h1, h2⟩ := ih.mp hch
      exact ⟨mid, chainTo_cons.mpr ⟨hd, x, hres, h1⟩, h2⟩
    · rintro ⟨mid, h1, h2⟩
      obtain ⟨hd, x, hres, hch⟩ := chainTo_cons.mp h1
      exact ⟨hd, x, hres, ih.mpr ⟨mid, hch, h2⟩⟩

theorem allResolvable_step {env : Env} {f : ProtoFile}
    (h : AllResolvable env f) {d : String} {g : ProtoFile}
    (hd : d ∈ f.dependencies) (hg : resolveDep env d = some g) :
    AllResolvable env g := by
  intro x c hc
  exact h x (d :: c) (chainTo_cons.mpr ⟨hd, g, hg, hc⟩)

theorem buildDepsWith_no_loadError {env : Env} {n : Nat}
    (ihn : ∀ {g : ProtoFile} {m : Mappings} {e : BuildErr},
      AllResolvable env g → buildMappings env n g m = .error e
        → e = .outOfFuel) :
    ∀ (ds : List String) {m : Mappings} {e : BuildErr},
    (∀ d ∈ ds, ∃ g, resolveDep env d = some g ∧ AllResolvable env g) →
    buildDepsWith env (buildMappings env n) ds m = .error e →
    e = .outOfFuel := by
  intro ds
  induction ds with
  | nil => intro m e _ h; exact absurd h (by simp [buildDepsWith])
  | cons d ds ih =>
    intro m e hres h
    obtain ⟨g, hg, hag⟩ := hres d (List.mem_cons_self _ _)
    unfold buildDepsWith at h
    rw [hg] at h
    dsimp only at h
    cases hrec : buildMappings env n g m with
    | error e2 =>
      rw [hrec] at h
      injection h with h
      rw [← h]
      exact ihn hag hrec
    | ok m2 =>
      rw [hrec] at h
      exact ih (fun x hx => hres x (List.mem_cons_of_mem _ hx)) h

theorem buildMappings_no_loadError {env : Env} : ∀ (fuel : Nat)
    {f : ProtoFile} {m : Mappings} {e : BuildErr}, AllResolvable env f →
    buildMappings env fuel f m = .error e → e = .outOfFuel := by
  intro fuel
  induction fuel with
  | zero =>
    intro f m e _ h
    rw [buildMappings_zero] at h
    injection h with h
    exact h.symm
  | succ n ih =>
    intro f m e haf h
    rw [buildMappings_succ] at h
    refine buildDepsWith_no_loadError (fun hag hrec => ih hag hrec)
      f.dependencies ?_ h
    intro d hd
    have hsome := haf f [] (chainTo_refl env f) d hd
    cases hres : resolveDep env d with
    | none => rw [hres] at hsome; exact absurd hsome (by simp)
    | some g => exact ⟨g, rfl, allResolvable_step haf hd hres⟩

theorem buildDepsWith_outOfFuel {env : Env} {n : Nat} :
    ∀ (l1 : List String) {l2 : List String} {d : String} {h : ProtoFile}
    {m : Mappings},
    (∀ x ∈ l1, ∃ gx, resolveDep env x = some gx ∧ AllResolvable env gx) →
    resolveDep env d = some h →
    (∀ m2, buildMappings env n h m2 = .error .outOfFuel) →
    buildDepsWith env (buildMappings env n) (l1 ++ d :: l2) m
      = .error .outOfFuel := by
  intro l1
  induction l1 with
  | nil =>
    intro l2 d h m _ hres hof
    rw [List.nil_append]
    unfold buildDepsWith
    rw [hres]
    dsimp only
    rw [hof m]
  | cons x l1 ih =>
    intro l2 d h m hl1 hres hof
    obtain ⟨gx, hgx, hagx⟩ := hl1 x (List.mem_cons_self _ _)
    rw [List.cons_append]
    unfold buildDepsWith
    rw [hgx]
    dsimp only
    cases hrec : buildMappings env n gx m with
    | error e =>
      rw [buildMappings_no_loadError n hagx hrec]
    | ok m2 =>
      exact ih (fun y hy => hl1 y (List.mem_cons_of_mem _ hy)) hres hof

theorem buildMappings_outOfFuel_of_chain {env : Env} : ∀ (fuel : Nat)
    {f : ProtoFile} {m : Mappings} {c : List String} {g : ProtoFile},
    AllResolvable env f → chainTo env f c g = true → fuel ≤ c.length →
    buildMappings env fuel f m = .error .outOfFuel := by
  intro fuel
  induction fuel with
  | zero => intro f m c g _ _ _; exact buildMappings_zero env f m
  | succ n ih =>
    intro f m c g haf hch hlen
    match c with
    | [] => simp at hlen
    | d :: ds =>
      obtain ⟨hd, x, hres, hch2⟩ := chainTo_cons.mp hch
      obtain ⟨l1, l2, hsplit⟩ := List.append_of_mem hd
      rw [buildMappings_succ, hsplit]
      apply buildDepsWith_outOfFuel l1 ?_ hres
      · intro m2
        apply ih (allResolvable_step haf hd hres) hch2
        rw [List.length_cons] at hlen
        omega
      · intro y hy
        have hmem : y ∈ f.dependencies := by
          rw [hsplit]
          exact List.mem_append_left _ hy
        have hsome := haf f [] (chainTo_refl env f) y hmem
        cases hresy : resolveDep env y with
        | none => rw [hresy] at hsome; exact absurd hsome (by simp)
        | some gy => exact ⟨gy, rfl, allResolvable_step haf hmem hresy⟩

theorem buildDepsWith_ok {env : Env} {n : Nat} :
    ∀ (ds : List String) (m : Mappings),
    (∀ d ∈ ds, ∃ g, resolveDep env d = some g
      ∧ ∀ m2, ∃ r, buildMappings env n g m2 = .ok r) →
    ∃ r, buildDepsWith env (buildMappings env n) ds m = .ok r := by
  intro ds
  induction ds with
  | nil => intro m _; exact ⟨m, rfl⟩
  | cons d ds ih =>
    intro m hres
    obtain ⟨g, hg, hok⟩ := hres d (List.mem_cons_self _ _)
    obtain ⟨r1, hr1⟩ := hok m
    unfold buildDepsWith
    rw [hg]
    dsimp only
    rw [hr1]
    exact ih r1 (fun x hx => hres x (List.mem_cons_of_mem _ hx))

theorem buildMappings_ok_of_bounded {env : Env} : ∀ (fuel : Nat)
    {f : ProtoFile} {m : Mappings}, AllResolvable env f →
    (∀ c (g : ProtoFile), chainTo env f c g = true → c.length < fuel) →
    ∃ r, buildMappings env fuel f m = .ok r := by
  intro fuel
  induction fuel with
  | zero =>
    intro f m _ hb
    have := hb [] f (chainTo_refl env f)
    simp at this
  | succ n ih =>
    intro f m haf hb
    rw [buildMappings_succ]
    apply buildDepsWith_ok
    intro d hd
    have hsome := haf f [] (chainTo_refl env f) d hd
    cases hres : resolveDep env d with
    | none => rw [hres] at hsome; exact absurd hsome (by simp)
    | some g =>
      refine ⟨g, rfl, ?_⟩
      intro m2
      apply ih (allResolvable_step haf hd hres)
      intro c h hch
      have := hb (d :: c) h (chainTo_cons.mpr ⟨hd, g, hres, hch⟩)
      rw [List.length_cons] at this
      omega

theorem buildDepsWith_keys_mono {env : Env} {n : Nat} :
    ∀ (ds : List String) {m r : Mappings},
    buildDepsWith env (buildMappings env n) ds m = .ok r →
    ∀ k, k ∈ keysOf m.types → k ∈ keysOf r.types := by
  intro ds
  induction ds with
  | nil =>
    intro m r h k hk
    unfold buildDepsWith at h
    injection h with h
    rw [← h]
    exact hk
  | cons d ds ih =>
    intro m r h k hk
    unfold buildDepsWith at h
    cases hres : resolveDep env d with
    | none => rw [hres] at h; exact absurd h (by simp)
    | some g =>
      rw [hres] at h
      dsimp only at h
      cases hrec : buildMappings env n g m with
      | error e => rw [hrec] at h; exact absurd h (by simp)
      | ok m2 =>
        rw [hrec] at h
        obtain ⟨ns, hns⟩ := types_keys_build hrec
        apply ih h
        rw [hns]
        exact List.mem_append_left _ hk

theorem buildDepsWith_split {env : Env}
    {rec : ProtoFile → Mappings → Except BuildErr Mappings} :
    ∀ (l1 : List String) {l2 : List String} {m r : Mappings},
    buildDepsWith env rec (l1 ++ l2) m = .ok r →
    ∃ m1, buildDepsWith env rec l1 m = .ok m1
      ∧ buildDepsWith env rec l2 m1 = .ok r := by
  intro l1
  induction l1 with
  | nil => intro l2 m r h; exact ⟨m, rfl, h⟩
  | cons x l1 ih =>
    intro l2 m r h
    rw [List.cons_append] at h
    unfold buildDepsWith at h
    cases hres : resolveDep env x with
    | none => rw [hres] at h; exact absurd h (by simp)
    | some g =>
      rw [hres] at h
      dsimp only at h
      cases hrec : rec g m with
      | error e => rw [hrec] at h; exact absurd h (by simp)
      | ok m2 =>
        rw [hrec] at h
        obtain ⟨m1, h1, h2⟩ := ih h
        refine ⟨m1, ?_, h2⟩
        unfold buildDepsWith
        rw [hres]
        dsimp only
        rw [hrec]
        exact h1

theorem buildMappings_covers {env : Env} : ∀ (fuel : Nat) {f : ProtoFile}
    {m r : Mappings}, buildMappings env fuel f m = .ok r →
    ∀ {c : List String} {g : ProtoFile}, chainTo env f c g = true →
    ∀ k, k ∈ keysOf g.message_types_by_name → k ∈ keysOf r.types := by
  intro fuel
  induction fuel with
  | zero => intro f m r h; rw [buildMappings_zero] at h; exact absurd h (by simp)
  | succ n ih =>
    intro f m r h c g hch k hk
    rw [buildMappings_succ] at h
    match c with
    | [] =>
      have hfg : f = g := chainTo_nil.mp hch
      apply buildDepsWith_keys_mono f.dependencies h
      rw [types_buildMappingsStep]
      apply mem_keysOf_odUpdateAll_right
      rw [hfg]
      exact hk
    | d :: ds =>
      obtain ⟨hd, x, hres, hch2⟩ := chainTo_cons.mp hch
      obtain ⟨l1, l2, hsplit⟩ := List.append_of_mem hd
      rw [hsplit] at h
      obtain ⟨m1, h1, h2⟩ := buildDepsWith_split l1 h
      unfold buildDepsWith at h2
      rw [hres] at h2
      dsimp only at h2
      cases hrec : buildMappings env n x m1 with
      | error e => rw [hrec] at h2; exact absurd h2 (by simp)
      | ok m2 =>
        rw [hrec] at h2
        exact buildDepsWith_keys_mono l2 h2 k (ih hrec hch2 k hk)

theorem chainTo_cycle_pump {env : Env} {g : ProtoFile} {c : List String}
    (hc : chainTo env g c g = true) (hne : c ≠ []) :
    ∀ n : Nat, ∃ c2, chainTo env g c2 g = true ∧ n ≤ c2.length := by
  intro n
  induction n with
  | zero => exact ⟨c, hc, Nat.zero_le _⟩
  | succ k ih =>
    obtain ⟨c2, h2, hl⟩ := ih
    refine ⟨c2 ++ c, chainTo_append.mpr ⟨g, h2, hc⟩, ?_⟩
    rw [List.length_append]
    have : 0 < c.length := List.length_pos.mpr hne
    omega

theorem map_not_nodup_split {γ δ : Type} [DecidableEq δ] (fn : γ → δ) :
    ∀ {l : List γ}, ¬(l.map fn).Nodup →
    ∃ xs d1 ys d2 zs, l = xs ++ d1 :: ys ++ d2 :: zs ∧ fn d1 = fn d2 := by
  intro l
  induction l with
  | nil => intro h; exact absurd (by simp : (([] : List γ).map fn).Nodup) h
  | cons a t ih =>
    intro h
    by_cases hmem : fn a ∈ t.map fn
    · obtain ⟨d2, hd2, hfd2⟩ := List.mem_map.mp hmem
      obtain ⟨s, u, rfl⟩ := List.append_of_mem hd2
      exact ⟨[], a, s, d2, u, rfl, hfd2.symm⟩
    · have hnt : ¬(t.map fn).Nodup := by
        intro hnd
        exact h (by rw [List.map_cons]; exact List.nodup_cons.mpr ⟨hmem, hnd⟩)
      obtain ⟨xs, d1, ys, d2, zs, heq, hfn⟩ := ih hnt
      exact ⟨a :: xs, d1, ys, d2, zs, by rw [heq]; rfl, hfn⟩

theorem hasCycle_of_dup_chain {env : Env} {root : ProtoFile}
    {c : List String} {h : ProtoFile} (hc : chainTo env root c h = true)
    (hnd : ¬(c.map moduleNameOf).Nodup) : HasCycle env root := by
  obtain ⟨xs, d1, ys, d2, zs, rfl, hfn⟩ := map_not_nodup_split moduleNameOf hnd
  obtain ⟨m0, h0, h1⟩ := chainTo_append.mp hc
  obtain ⟨hd2, g2, hres2, -⟩ := chainTo_cons.mp h1
  obtain ⟨p0, hp0, hp1⟩ := chainTo_append.mp h0
  obtain ⟨hd1, g1, hres1, hch1⟩ := chainTo_cons.mp hp1
  have hg : g2 = g1 := by
    unfold resolveDep at hres1 hres2
    rw [hfn] at hres1
    rw [hres2] at hres1
    exact Option.some_inj.mp hres1
  refine ⟨g1, xs ++ [d1], ys ++ [d2], ?_, by simp, ?_⟩
  · exact chainTo_append.mpr
      ⟨p0, hp0, chainTo_cons.mpr ⟨hd1, g1, hres1, chainTo_refl env g1⟩⟩
  · exact chainTo_append.mpr
      ⟨m0, hch1, chainTo_cons.mpr
        ⟨hd2, g1, by rw [← hg]; exact hres2, chainTo_refl env g1⟩⟩

theorem chain_modnames_subset {env : Env} : ∀ {c : List String}
    {f h : ProtoFile}, chainTo env f c h = true →
    ∀ e ∈ c.map moduleNameOf, e ∈ keysOf env := by
  intro c
  induction c with
  | nil => intro f h _ e he; simp at he
  | cons d ds ih =>
    intro f h hc e he
    obtain ⟨hd, g, hres, hch⟩ := chainTo_cons.mp hc
    rw [List.map_cons, List.mem_cons] at he
    rcases he with rfl | he
    · unfold resolveDep at hres
      exact mem_keysOf.mpr ⟨g, odLookup_mem hres⟩
    · exact ih hch e he

theorem chain_length_le {env : Env} {root : ProtoFile}
    (hcf : ¬HasCycle env root) : ∀ {c : List String} {h : ProtoFile},
    chainTo env root c h = true → c.length ≤ env.length := by
  intro c h hc
  have hnd : (c.map moduleNameOf).Nodup := by
    by_contra hnd
    exact hcf (hasCycle_of_dup_chain hc hnd)
  have hsub : c.map moduleNameOf ⊆ keysOf env :=
    fun e he => chain_modnames_subset hc e he
  have hle := (hnd.subperm hsub).length_le
  rw [List.length_map] at hle
  have : (keysOf env).length = env.length := by
    unfold keysOf
    rw [List.length_map]
  omega

/-! ## Lemmas about the template generator -/

theorem processField_primitive {tm : List (Nat × String)}
    {mm : List (String × Nat)} {key : String} {f : Field} {line : String}
    {e : Option String} (hf : f.message_type = none)
    (h : processField tm mm key f = some (line, e)) :
    ∃ t, odLookup tm f.type = some t
      ∧ line = "+ " ++ f.name ++ ":" ++ t ∧ e = none := by
  unfold processField at h
  cases ht : odLookup tm f.type with
  | none => rw [ht] at h; exact absurd h (by simp)
  | some t =>
    rw [ht] at h
    dsimp only at h
    rw [hf] at h
    dsimp only at h
    injection h with h
    rw [Prod.mk.injEq] at h
    exact ⟨t, rfl, h.1.symm, h.2.symm⟩

theorem processField_message {tm : List (Nat × String)}
    {mm : List (String × Nat)} {key ref : String} {f : Field} {line : String}
    {e : Option String} (hf : f.message_type = some ref)
    (h : processField tm mm key f = some (line, e)) :
    ∃ a b t, odLookup tm f.type = some t
      ∧ odLookup mm key = some a ∧ odLookup mm ref = some b
      ∧ line = "+ " ++ f.name ++ ":" ++ ref
      ∧ e = some ("    " ++ toString a ++ "->" ++ toString b)
      ∧ fieldEdges mm key f
          = ["    " ++ toString a ++ "->" ++ toString b] := by
  unfold processField at h
  cases ht : odLookup tm f.type with
  | none => rw [ht] at h; exact absurd h (by simp)
  | some t =>
    rw [ht] at h
    dsimp only at h
    rw [hf] at h
    dsimp only at h
    cases ha : odLookup mm key with
    | none => rw [ha] at h; exact absurd h (by simp)
    | some a =>
      rw [ha] at h
      cases hb : odLookup mm ref with
      | none => rw [hb] at h; exact absurd h (by simp)
      | some b =>
        rw [hb] at h
        dsimp only at h
        injection h with h
        rw [Prod.mk.injEq] at h
        refine ⟨a, b, t, rfl, rfl, rfl, h.1.symm, h.2.symm, ?_⟩
        unfold fieldEdges
        rw [hf]
        dsimp only
        rw [ha, hb]

theorem processField_edges {tm : List (Nat × String)}
    {mm : List (String × Nat)} {key : String} {f : Field} {line : String}
    {e : Option String} (h : processField tm mm key f = some (line, e)) :
    e.toList = fieldEdges mm key f := by
  cases hf : f.message_type with
  | none =>
    obtain ⟨t, -, -, rfl⟩ := processField_primitive hf h
    unfold fieldEdges
    rw [hf]
    rfl
  | some ref =>
    obtain ⟨a, b, t, -, -, -, -, rfl, hfe⟩ := processField_message hf h
    rw [hfe]
    rfl

theorem processFields_some {tm : List (Nat × String)}
    {mm : List (String × Nat)} {key : String} :
    ∀ {fs : List Field} {lines es : List String},
    processFields tm mm key fs = some (lines, es) →
    es = fieldsEdges mm key fs
      ∧ lines.length = fs.length
      ∧ (∀ j f, fs.get? j = some f → ∃ line e,
          processField tm mm key f = some (line, e)
            ∧ lines.get? j = some line) := by
  intro fs
  induction fs with
  | nil =>
    intro lines es h
    unfold processFields at h
    injection h with h
    rw [Prod.mk.injEq] at h
    obtain ⟨h1, h2⟩ := h
    refine ⟨h2.symm, by rw [← h1]; rfl, ?_⟩
    intro j f hj
    simp at hj
  | cons f fs ih =>
    intro lines es h
    unfold processFields at h
    cases hpf : processField tm mm key f with
    | none => rw [hpf] at h; exact absurd h (by simp)
    | some le =>
      obtain ⟨fline, fe⟩ := le
      rw [hpf] at h
      cases hrest : processFields tm mm key fs with
      | none => rw [hrest] at h; exact absurd h (by simp)
      | some p =>
        obtain ⟨ls, es'⟩ := p
        rw [hrest] at h
        injection h with h
        rw [Prod.mk.injEq] at h
        obtain ⟨hl, he⟩ := h
        obtain ⟨hes, hlen, hall⟩ := ih hrest
        refine ⟨?_, ?_, ?_⟩
        · rw [← he, hes, fieldsEdges, ← processField_edges hpf]
        · rw [← hl, List.length_cons, hlen]
          rfl
        · intro j g hj
          match j with
          | 0 =>
            simp only [List.get?] at hj
            injection hj with hj
            subst hj
            exact ⟨fline, fe, hpf, by rw [← hl]; rfl⟩
          | j + 1 =>
            simp only [List.get?] at hj
            obtain ⟨line, e, hpg, hlj⟩ := hall j g hj
            exact ⟨line, e, hpg, by rw [← hl]; simpa using hlj⟩

theorem umlLoop_some {tm : List (Nat × String)} {mm : List (String × Nat)} :
    ∀ {types : List (String × MessageType)} {cs rs : List String} {s : Nat},
    umlLoop tm mm types s = some (cs, rs) →
    rs = typesEdges mm types
      ∧ (∀ p ∈ types, ∃ lines es,
          processFields tm mm p.1 p.2.fields = some (lines, es)) := by
  intro types
  induction types with
  | nil =>
    intro cs rs s h
    unfold umlLoop at h
    injection h with h
    rw [Prod.mk.injEq] at h
    exact ⟨h.2.symm, by simp⟩
  | cons p rest ih =>
    intro cs rs s h
    obtain ⟨key, message⟩ := p
    unfold umlLoop at h
    cases hpf : processFields tm mm key message.fields with
    | none => rw [hpf] at h; exact absurd h (by simp)
    | some q =>
      obtain ⟨lines, es⟩ := q
      rw [hpf] at h
      cases hrest : umlLoop tm mm rest (s + 1) with
      | none => rw [hrest] at h; exact absurd h (by simp)
      | some q2 =>
        obtain ⟨cs2, rs2⟩ := q2
        rw [hrest] at h
        injection h with h
        rw [Prod.mk.injEq] at h
        obtain ⟨hc, hr⟩ := h
        obtain ⟨hes, hall⟩ := ih hrest
        constructor
        · rw [← hr, typesEdges, hes]
          obtain ⟨hfe, -, -⟩ := processFields_some hpf
          rw [hfe]
        · intro q hq
          rcases List.mem_cons.mp hq with rfl | hq
          · exact ⟨lines, es, hpf⟩
          · exact hall q hq

theorem umlLoop_eq_byTable {tm : List (Nat × String)}
    {mm : List (String × Nat)} :
    ∀ (types : List (String × MessageType)) (s : Nat),
    (∀ j k msg, types.get? j = some (k, msg) → odLookup mm k = some (s + j)) →
    umlLoop tm mm types s = umlLoopByTable tm mm types := by
  intro types
  induction types with
  | nil => intro s _; rfl
  | cons p rest ih =>
    intro s h
    obtain ⟨key, message⟩ := p
    have h0 : odLookup mm key = some s := by
      have := h 0 key message (by simp)
      simpa using this
    unfold umlLoop umlLoopByTable
    rw [h0]
    cases hpf : processFields tm mm key message.fields with
    | none => rfl
    | some q =>
      rw [ih (s + 1) ?_]
      intro j k msg hj
      have := h (j + 1) k msg (by simpa using hj)
      rw [this]
      congr 1
      omega

/-! ## The claims -/

/-- Claim C1: for every message-typed field of every message type in the
tables, the template generator emits exactly one edge string whose source
index is the `NodeIndexTable` entry of the owning type's name and whose
target index is the `NodeIndexTable` entry of the referenced type's name,
and the field's displayed type name in the node block is the referenced
type's name, never the generic "message" label: the relationship list is
exactly the per-field edge contributions, and each message-typed field
contributes the one edge and the one display line shown. -/
theorem claim_C1 {types : List (String × MessageType)}
    {tm : List (Nat × String)} {mm : List (String × Nat)}
    {cs rs : List String}
    (h : getUmlParts types tm mm = some (cs, rs)) :
    rs = typesEdges mm types
      ∧ (∀ key message, (key, message) ∈ types →
         ∀ f ∈ message.fields, ∀ ref, f.message_type = some ref →
         ∃ a b, odLookup mm key = some a ∧ odLookup mm ref = some b
           ∧ fieldEdges mm key f
               = ["    " ++ toString a ++ "->" ++ toString b]
           ∧ ∃ line e, processField tm mm key f = some (line, e)
             ∧ line = "+ " ++ f.name ++ ":" ++ ref
             ∧ e = some ("    " ++ toString a ++ "->" ++ toString b)) := by
  unfold getUmlParts at h
  obtain ⟨hrs, hall⟩ := umlLoop_some h
  refine ⟨hrs, ?_⟩
  intro key message hmem f hf ref href
  obtain ⟨lines, es, hpf⟩ := hall (key, message) hmem
  obtain ⟨-, -, hidx⟩ := processFields_some hpf
  obtain ⟨j, hj⟩ := List.mem_iff_get?.mp hf
  obtain ⟨line, e, hpfield, -⟩ := hidx j f hj
  obtain ⟨a, b, t, -, ha, hb, hline, he, hfe⟩ := processField_message href hpfield
  exact ⟨a, b, ha, hb, hfe, line, e, hpfield, hline, he⟩

theorem claim_C1_witness :
    ["    2->3"] = typesEdges exMm exTypes
      ∧ ∃ a b, odLookup exMm "Order" = some a
          ∧ odLookup exMm "Customer" = some b
          ∧ fieldEdges exMm "Order" ⟨"customer", 11, some "Customer"⟩
              = ["    " ++ toString a ++ "->" ++ toString b]
          ∧ ∃ line e,
              processField exTm exMm "Order" ⟨"customer", 11, some "Customer"⟩
                = some (line, e)
              ∧ line = "+ " ++ "customer" ++ ":" ++ "Customer"
              ∧ e = some ("    " ++ toString a ++ "->" ++ toString b) := by
  have hc := claim_C1 (show getUmlParts exTypes exTm exMm
    = some ([orderBlock, customerBlock], ["    2->3"]) from by decide)
  exact ⟨hc.1, hc.2 "Order" orderMsg (by decide)
    ⟨"customer", 11, some "Customer"⟩ (by decide) "Customer" rfl⟩

/-- Claim C2: the determinism scenario.  Building the mapping for a root
schema declaring `Order { id: int32; customer: Customer }` that imports a
schema declaring `Customer { name: string }` and generating the document
yields exactly one edge (from Order's node index 2 to Customer's node
index 3), exactly two node blocks, with field lines `+ id:int32` and
`+ customer:Customer` in Order's block and `+ name:string` in Customer's
block. -/
theorem claim_C2 :
    ∃ r, buildMappings exEnv 2 orderFile emptyMappings = .ok r
      ∧ getUmlParts r.types r.type_mapping r.message_mapping
          = some ([orderBlock, customerBlock], ["    2->3"])
      ∧ orderBlock
          = "    2[label = \"\x7bOrder|"
            ++ String.intercalate "\\n" ["+ id:int32", "+ customer:Customer"]
            ++ "\x7d\"]\n"
      ∧ customerBlock
          = "    3[label = \"\x7bCustomer|"
            ++ String.intercalate "\\n" ["+ name:string"]
            ++ "\x7d\"]\n" :=
  ⟨exBuilt, rfl, by decide, by decide, by decide⟩

/-- Claim C3: for every field whose type is a primitive code (no message
reference), the displayed type name equals the `TypeCodeTable` entry for
that numeric code — which, after any successful build, is the enumeration
constant's name lowercased with the `type_` prefix token removed — and the
field renders as the single line `+ fieldName:displayTypeName`. -/
theorem claim_C3 :
    (∀ (env : Env) (fuel : Nat) (f : ProtoFile) (m r : Mappings),
      buildMappings env fuel f m = .ok r →
      ∀ text num, (text, num) ∈ fieldDescriptorTypeItems →
        odLookup r.type_mapping num
          = some (pyReplace (pyLower text) "type_" ""))
  ∧ (∀ (tm : List (Nat × String)) (mm : List (String × Nat)) (key : String)
      (f : Field) (line : String) (e : Option String),
      f.message_type = none →
      processField tm mm key f = some (line, e) →
      e = none ∧ ∃ t, odLookup tm f.type = some t
        ∧ line = "+ " ++ f.name ++ ":" ++ t) := by
  constructor
  · intro env fuel f m r h text num hmem
    apply type_mapping_build_lookup h
    unfold typeMappingItems
    exact List.mem_map.mpr ⟨(text, num), hmem, rfl⟩
  · intro tm mm key f line e hf h
    obtain ⟨t, ht, hline, he⟩ := processField_primitive hf h
    exact ⟨he, t, ht, hline⟩

theorem claim_C3_witness :
    odLookup exBuilt.type_mapping 9
        = some (pyReplace (pyLower "TYPE_STRING") "type_" "")
      ∧ (none = (none : Option String)
        ∧ ∃ t, odLookup exTm (9 : Nat) = some t
          ∧ "+ name:string" = "+ " ++ "name" ++ ":" ++ t) :=
  ⟨claim_C3.1 exEnv 2 orderFile emptyMappings exBuilt rfl "TYPE_STRING" 9
      (by decide),
   claim_C3.2 exTm exMm "Customer" ⟨"name", 9, none⟩ "+ name:string" none rfl
      (by decide)⟩

/-- Claim C4: within one render, `NodeIndexTable` assigns indices in
first-discovery order starting at 2 (index of a type = 2 + its position in
the type table, so 0 and 1 are never assigned), and once a type name has an
index, recomputations during subsequent dependency merges never change it:
any build continuing from a state satisfying the builder invariant
preserves every existing index. -/
theorem claim_C4 {env : Env} {fuel : Nat} {f : ProtoFile} {m r : Mappings}
    (hok : buildMappings env fuel f m = .ok r) (hm : MappingsInv m) :
    (∀ k i, odLookup r.message_mapping k = some i →
       2 ≤ i ∧ ∃ j, (keysOf r.types).get? j = some k ∧ i = 2 + j)
    ∧ (∀ k i, odLookup m.message_mapping k = some i →
       odLookup r.message_mapping k = some i) := by
  have hr := mappingsInv_build hok hm
  constructor
  · intro k i hl
    rw [hr.2, getMessageMapping_eq_enumFrom hr.1] at hl
    obtain ⟨j, hj, rfl⟩ := odLookup_enumFrom_some hl
    exact ⟨by omega, j, hj, rfl⟩
  · intro k i hl
    exact message_mapping_preserved hok hm hl

theorem claim_C4_witness :
    ((2 ≤ 2 ∧ ∃ j, (keysOf exBuilt2.types).get? j = some "Order" ∧ 2 = 2 + j)
      ∧ odLookup exBuilt2.message_mapping "Order" = some 2)
    ∧ (2 ≤ 3
      ∧ ∃ j, (keysOf exBuilt2.types).get? j = some "Customer" ∧ 3 = 2 + j) := by
  have h2 : buildMappings exEnv 2 orderFile exBuilt = .ok exBuilt2 := rfl
  have hInv : MappingsInv exBuilt := by
    constructor
    · decide
    · decide
  exact ⟨⟨(claim_C4 h2 hInv).1 "Order" 2 (by decide),
      (claim_C4 h2 hInv).2 "Order" 2 (by decide)⟩,
    (claim_C4 h2 hInv).1 "Customer" 3 (by decide)⟩

/-- Claim C5: for every tables triple produced by one complete mapping
build, the local running counter that numbers node blocks during emission
(starting at 2 in type-table order) assigns every type the same number as
its `NodeIndexTable` entry used for edges: the emission equals the variant
that numbers blocks from the table, and the i-th type's table entry is
2 + i. -/
theorem claim_C5 {env : Env} {fuel : Nat} {f : ProtoFile} {m r : Mappings}
    (hok : buildMappings env fuel f m = .ok r) (hm : MappingsInv m) :
    getUmlParts r.types r.type_mapping r.message_mapping
        = getUmlPartsByTable r.types r.type_mapping r.message_mapping
      ∧ ∀ j key message, r.types.get? j = some (key, message) →
          odLookup r.message_mapping key = some (2 + j) := by
  have hr := mappingsInv_build hok hm
  have hkey : ∀ j key message, r.types.get? j = some (key, message) →
      odLookup r.message_mapping key = some (2 + j) := by
    intro j key message hj
    rw [hr.2, getMessageMapping_eq_enumFrom hr.1]
    apply odLookup_enumFrom_get? hr.1
    unfold keysOf
    rw [List.get?_map, hj]
    rfl
  refine ⟨?_, hkey⟩
  unfold getUmlParts getUmlPartsByTable
  exact umlLoop_eq_byTable r.types 2 (fun j k msg hj => hkey j k msg hj)

theorem claim_C5_witness :
    (getUmlParts exBuilt.types exBuilt.type_mapping exBuilt.message_mapping
        = getUmlPartsByTable exBuilt.types exBuilt.type_mapping
            exBuilt.message_mapping)
      ∧ odLookup exBuilt.message_mapping "Order" = some (2 + 0) := by
  have h1 : buildMappings exEnv 2 orderFile emptyMappings = .ok exBuilt := rfl
  exact ⟨(claim_C5 h1 mappingsInv_empty).1,
    (claim_C5 h1 mappingsInv_empty).2 0 "Order" orderMsg (by decide)⟩

/-- Claim C6: invoking the mapping builder twice in succession on the same
closure with no intervening mutation succeeds again and yields identical
`TypeCodeTable` and type-by-name tables both times (the second build runs
on the process-global tables left by the first, which Python's class-level
dict attributes share across `Mappings()` instances). -/
theorem claim_C6 {env : Env} {fuel : Nat} {f : ProtoFile} {r : Mappings}
    (h : buildMappings env fuel f emptyMappings = .ok r) :
    ∃ r2, buildMappings env fuel f r = .ok r2
      ∧ r2.type_mapping = r.type_mapping ∧ r2.types = r.types := by
  obtain ⟨l, htr, rfl⟩ := buildMappings_ok_trace h
  refine ⟨foldSteps l (foldSteps l emptyMappings), ?_, ?_, ?_⟩
  · rw [buildMappings_eq_trace, htr]
    rfl
  · simp only [type_mapping_foldSteps]
    exact odUpdateAll_self (tmOpsOfFiles l) (by simp [emptyMappings, keysOf])
  · simp only [types_foldSteps]
    exact odUpdateAll_self (msgsOfFiles l) (by simp [emptyMappings, keysOf])

theorem claim_C6_witness :
    ∃ r2, buildMappings exEnv 2 orderFile exBuilt = .ok r2
      ∧ r2.type_mapping = exBuilt.type_mapping ∧ r2.types = exBuilt.types :=
  claim_C6 (show buildMappings exEnv 2 orderFile emptyMappings = .ok exBuilt
    from rfl)

/-- Claim C7: requesting a build when no root schema module has been loaded
raises the missing-input error: for every process-global table state the
result is the `ValueError` with the missing-module message, returned before
the mapping builder or the generator is invoked, so no table is touched and
no document is produced. -/
theorem claim_C7 (env : Env) (fuel : Nat) (g : Mappings) (d : Diagram)
    (h : d.proto_module = none) :
    Diagram.build env fuel g d
      = .error (.valueError "No Protobuf Python module!") := by
  unfold Diagram.build
  rw [h]

theorem claim_C7_witness :
    Diagram.build exEnv 0 emptyMappings Diagram.init
      = .error (.valueError "No Protobuf Python module!") :=
  claim_C7 exEnv 0 emptyMappings Diagram.init rfl

/-- Claim C8 counterexample: setting the output location on a `Diagram`
with no schema module loaded does not fail with a descriptive missing-input
`ValueError`; it crashes with an `AttributeError` from reading
`None.__file__` — the step performs no such validation. -/
theorem claim_C8_counterexample :
    Diagram.to_file "out" Diagram.init
        = .error (.attributeError "'NoneType' object has no attribute '__file__'")
      ∧ ∀ msg, Diagram.to_file "out" Diagram.init
          ≠ .error (.valueError msg) := by
  have h1 : Diagram.to_file "out" Diagram.init
      = .error (.attributeError "'NoneType' object has no attribute '__file__'") := by
    decide
  refine ⟨h1, ?_⟩
  intro msg h
  rw [h1] at h
  exact absurd h (by simp)

/-- Claim C8 (amended): `from_file` validates the schema identifier,
`to_file` validates the output location, and `build` validates both the
loaded module and the output location, each failing fast with a descriptive
`ValueError`; but `to_file` does not validate that a schema module has been
loaded — with a non-empty output and no module it fails with a
non-descriptive `AttributeError` instead of a missing-input validation. -/
theorem claim_C8 :
    (∀ (env : Env) (d : Diagram),
      Diagram.from_file env "" d = .error (.valueError "Missing proto file!"))
  ∧ (∀ d : Diagram,
      Diagram.to_file "" d = .error (.valueError "Missing output location!"))
  ∧ (∀ (env : Env) (fuel : Nat) (g : Mappings) (d : Diagram),
      d.proto_module = none →
      Diagram.build env fuel g d
        = .error (.valueError "No Protobuf Python module!"))
  ∧ (∀ (env : Env) (fuel : Nat) (g : Mappings) (d : Diagram) (pf : ProtoFile),
      d.proto_module = some pf → d.rendered_filename = none →
      Diagram.build env fuel g d = .error (.valueError "No output location!"))
  ∧ (∀ (d : Diagram) (out : String), out ≠ "" → d.proto_module = none →
      Diagram.to_file out d
        = .error (.attributeError "'NoneType' object has no attribute '__file__'")) := by
  refine ⟨?_, ?_, ?_, ?_, ?_⟩
  · intro env d
    unfold Diagram.from_file
    rw [if_pos rfl]
  · intro d
    unfold Diagram.to_file
    rw [if_pos rfl]
  · intro env fuel g d h
    unfold Diagram.build
    rw [h]
  · intro env fuel g d pf hp hr
    unfold Diagram.build
    rw [hp]
    dsimp only
    rw [hr]
  · intro d out hne hp
    unfold Diagram.to_file
    rw [if_neg hne, hp]

theorem claim_C8_witness :
    Diagram.from_file exEnv "" Diagram.init
        = .error (.valueError "Missing proto file!")
      ∧ Diagram.to_file "" Diagram.init
          = .error (.valueError "Missing output location!")
      ∧ Diagram.build exEnv 0 emptyMappings Diagram.init
          = .error (.valueError "No Protobuf Python module!")
      ∧ Diagram.build exEnv 0 emptyMappings ⟨some orderFile, none⟩
          = .error (.valueError "No output location!")
      ∧ Diagram.to_file "out" Diagram.init
          = .error (.attributeError "'NoneType' object has no attribute '__file__'") :=
  ⟨claim_C8.1 exEnv Diagram.init,
   claim_C8.2.1 Diagram.init,
   claim_C8.2.2.1 exEnv 0 emptyMappings Diagram.init rfl,
   claim_C8.2.2.2.1 exEnv 0 emptyMappings ⟨some orderFile, none⟩ orderFile rfl rfl,
   claim_C8.2.2.2.2 Diagram.init "out" (by decide) rfl⟩

theorem selfLoop_reach : ∀ (c : List String) (g : ProtoFile),
    chainTo selfLoopEnv selfLoopFile c g = true → g = selfLoopFile := by
  intro c
  induction c with
  | nil => intro g h; exact (chainTo_nil.mp h).symm
  | cons d ds ih =>
    intro g h
    obtain ⟨hd, x, hres, hch⟩ := chainTo_cons.mp h
    have hda : d = "a.proto" := by
      have : selfLoopFile.dependencies = ["a.proto"] := rfl
      rw [this] at hd
      simpa using hd
    subst hda
    have hx : x = selfLoopFile := by
      have : resolveDep selfLoopEnv "a.proto" = some selfLoopFile := by decide
      rw [this] at hres
      exact (Option.some_inj.mp hres).symm
    subst hx
    exact ih g hch

theorem selfLoop_allResolvable : AllResolvable selfLoopEnv selfLoopFile := by
  intro g c hc d hd
  rw [selfLoop_reach c g hc] at hd
  have hda : d = "a.proto" := by
    have : selfLoopFile.dependencies = ["a.proto"] := rfl
    rw [this] at hd
    simpa using hd
  subst hda
  decide

theorem customer_chain : ∀ (c : List String) (g : ProtoFile),
    chainTo exEnv customerFile c g = true → c = [] ∧ g = customerFile := by
  intro c g h
  cases c with
  | nil => exact ⟨rfl, (chainTo_nil.mp h).symm⟩
  | cons d ds =>
    obtain ⟨hd, -, -, -⟩ := chainTo_cons.mp h
    have : customerFile.dependencies = [] := rfl
    rw [this] at hd
    simp at hd

theorem order_reach : ∀ (c : List String) (g : ProtoFile),
    chainTo exEnv orderFile c g = true →
    (c = [] ∧ g = orderFile) ∨ (c = ["customer.proto"] ∧ g = customerFile) := by
  intro c g h
  cases c with
  | nil => exact Or.inl ⟨rfl, (chainTo_nil.mp h).symm⟩
  | cons d ds =>
    obtain ⟨hd, x, hres, hch⟩ := chainTo_cons.mp h
    have hdc : d = "customer.proto" := by
      have : orderFile.dependencies = ["customer.proto"] := rfl
      rw [this] at hd
      simpa using hd
    subst hdc
    have hx : x = customerFile := by
      have : resolveDep exEnv "customer.proto" = some customerFile := by decide
      rw [this] at hres
      exact (Option.some_inj.mp hres).symm
    subst hx
    obtain ⟨rfl, rfl⟩ := customer_chain ds g hch
    exact Or.inr ⟨rfl, rfl⟩

theorem ex_allResolvable : AllResolvable exEnv orderFile := by
  intro g c hc d hd
  rcases order_reach c g hc with ⟨-, rfl⟩ | ⟨-, rfl⟩
  · have hdc : d = "customer.proto" := by
      have : orderFile.dependencies = ["customer.proto"] := rfl
      rw [this] at hd
      simpa using hd
    subst hdc
    decide
  · have : customerFile.dependencies = [] := rfl
    rw [this] at hd
    simp at hd

theorem ex_noCycle : ¬HasCycle exEnv orderFile := by
  rintro ⟨g, c1, c2, h1, hne, h2⟩
  rcases order_reach c1 g h1 with ⟨-, rfl⟩ | ⟨-, rfl⟩
  · rcases order_reach c2 orderFile h2 with ⟨rfl, -⟩ | ⟨-, hoc⟩
    · exact hne rfl
    · exact absurd hoc (by decide)
  · obtain ⟨rfl, -⟩ := customer_chain c2 customerFile h2
    exact hne rfl

/-- Claim C9: the dependency traversal recurses strictly along the
declared import edges with no visited-set guard.  For every loadable closure
containing an import cycle the build exhausts any fuel (the embedding of
non-termination), and for every cycle-free loadable closure some fuel makes
it succeed, with the resulting type table covering the root and every
transitively imported file. -/
theorem claim_C9 :
    (∀ (env : Env) (root : ProtoFile) (m : Mappings) (g : ProtoFile)
      (c1 c2 : List String), AllResolvable env root →
      chainTo env root c1 g = true → c2 ≠ [] → chainTo env g c2 g = true →
      ∀ fuel, buildMappings env fuel root m = .error .outOfFuel)
  ∧ (∀ (env : Env) (root : ProtoFile) (m : Mappings),
      AllResolvable env root → ¬HasCycle env root →
      ∃ fuel r, buildMappings env fuel root m = .ok r
        ∧ ∀ (c : List String) (g : ProtoFile), chainTo env root c g = true →
            ∀ k ∈ keysOf g.message_types_by_name, k ∈ keysOf r.types) := by
  constructor
  · intro env root m g c1 c2 har h1 hne h2 fuel
    obtain ⟨c3, h3, hlen⟩ := chainTo_cycle_pump h2 hne fuel
    apply buildMappings_outOfFuel_of_chain fuel har
      (chainTo_append.mpr ⟨g, h1, h3⟩)
    rw [List.length_append]
    omega
  · intro env root m har hcf
    obtain ⟨r, hr⟩ := buildMappings_ok_of_bounded (env.length + 1) har
      (fun c g hch => by have := chain_length_le hcf hch; omega)
    refine ⟨env.length + 1, r, hr, ?_⟩
    intro c g hch k hk
    exact buildMappings_covers (env.length + 1) hr hch k hk

theorem claim_C9_witness :
    buildMappings selfLoopEnv 5 selfLoopFile emptyMappings
        = .error .outOfFuel
      ∧ ∃ fuel r, buildMappings exEnv fuel orderFile emptyMappings = .ok r
          ∧ ∀ (c : List String) (g : ProtoFile),
              chainTo exEnv orderFile c g = true →
              ∀ k ∈ keysOf g.message_types_by_name, k ∈ keysOf r.types :=
  ⟨claim_C9.1 selfLoopEnv selfLoopFile emptyMappings selfLoopFile []
      ["a.proto"] selfLoop_allResolvable (by decide) (by decide) (by decide) 5,
   claim_C9.2 exEnv orderFile emptyMappings ex_allResolvable ex_noCycle⟩

/-- Claim C10: the three mapping tables are class-level attributes shared
by every `Mappings` instance, so a second build in the same process starts
from the tables the first build accumulated; the tables it returns contain
every entry of the first build's tables — keys of the type table persist,
type-code entries persist, node indices persist unchanged, and when the
second closure declares none of the first build's type names, the type
table entries persist with their exact values. -/
theorem claim_C10 {env1 env2 : Env} {fuel1 fuel2 : Nat} {f1 f2 : ProtoFile}
    {r1 r2 : Mappings}
    (h1 : buildMappings env1 fuel1 f1 emptyMappings = .ok r1)
    (h2 : buildMappings env2 fuel2 f2 r1 = .ok r2) :
    (∀ k, k ∈ keysOf r1.types → k ∈ keysOf r2.types)
  ∧ (∀ k v, odLookup r1.type_mapping k = some v →
      odLookup r2.type_mapping k = some v)
  ∧ (∀ k i, odLookup r1.message_mapping k = some i →
      odLookup r2.message_mapping k = some i)
  ∧ (∀ l2, visitTrace env2 fuel2 f2 = .ok l2 →
      ∀ k v, odLookup r1.types k = some v →
        k ∉ keysOf (msgsOfFiles l2) → odLookup r2.types k = some v) := by
  refine ⟨?_, ?_, ?_, ?_⟩
  · intro k hk
    obtain ⟨ns, hns⟩ := types_keys_build h2
    rw [hns]
    exact List.mem_append_left _ hk
  · intro k v hv
    obtain ⟨l1, ht1, rfl⟩ := buildMappings_ok_trace h1
    obtain ⟨l2, ht2, rfl⟩ := buildMappings_ok_trace h2
    rw [type_mapping_foldSteps, odLookup_odUpdateAll,
      lastWrite_tmOps (visitTrace_ok_ne_nil ht1)] at hv
    have hnone : odLookup emptyMappings.type_mapping k = none := rfl
    rw [hnone] at hv
    have hlw : lastWrite typeMappingItems k = some v := by
      cases hc : lastWrite typeMappingItems k with
      | none => rw [hc] at hv; exact absurd hv (by simp)
      | some w => rw [hc] at hv; exact hv
    rw [type_mapping_foldSteps, odLookup_odUpdateAll,
      lastWrite_tmOps (visitTrace_ok_ne_nil ht2), hlw]
    rfl
  · intro k i hi
    exact message_mapping_preserved h2
      (mappingsInv_build h1 mappingsInv_empty) hi
  · intro l2 hl2 k v hv hk
    obtain ⟨l2x, ht2, rfl⟩ := buildMappings_ok_trace h2
    rw [hl2] at ht2
    injection ht2 with ht2
    subst ht2
    rw [types_foldSteps]
    rw [odLookup_odUpdateAll_of_not_mem hk]
    exact hv

theorem claim_C10_witness :
    ("Order" ∈ keysOf exBuilt3.types)
      ∧ odLookup exBuilt3.type_mapping 9 = some "string"
      ∧ odLookup exBuilt3.message_mapping "Order" = some 2
      ∧ odLookup exBuilt3.types "Order" = some orderMsg := by
  have h1 : buildMappings exEnv 2 orderFile emptyMappings = .ok exBuilt := rfl
  have h2 : buildMappings otherEnv 1 otherFile exBuilt = .ok exBuilt3 := rfl
  refine ⟨(claim_C10 h1 h2).1 "Order" (by decide),
    (claim_C10 h1 h2).2.1 9 "string" (by decide),
    (claim_C10 h1 h2).2.2.1 "Order" 2 (by decide),
    (claim_C10 h1 h2).2.2.2 [otherFile] (by decide) "Order" orderMsg
      (by decide) (by decide)⟩

end ProtoUml
